import Mathlib

set_option maxHeartbeats 1000000
set_option maxRecDepth 4000

/-!
Shallow embedding of the TAP parsing core of the vscode-tap extension
(src/out/extension.js, the variant with grouped test parsing): the two line
regexes `TEST_RESULT_REGEX` and `TEST_PLAN_REGEX`, directive detection,
description clean-up and duration extraction, the grouping pass
`parseTapContent`, the current-test folding pass
`TapFoldingProvider.provideFoldingRanges`, and the presentation mapping of
`updateTestsForDocument`.

Strings are modelled as `List Char`.  JavaScript numbers obtained by
`parseInt` on a digit capture are modelled as `Nat`; `parseFloat` durations
are modelled as `Rat` (exact decimal arithmetic in place of IEEE doubles).
-/

/-- Character class of JavaScript `\s` (identical to the character set removed
by `String.prototype.trim`). -/
def isJsSpace (c : Char) : Bool :=
  c.toNat = 32 || c.toNat = 9 || c.toNat = 10 || c.toNat = 11 || c.toNat = 12 ||
  c.toNat = 13 || c.toNat = 0xa0 || c.toNat = 0x1680 ||
  (0x2000 ≤ c.toNat && c.toNat ≤ 0x200a) ||
  c.toNat = 0x2028 || c.toNat = 0x2029 || c.toNat = 0x202f || c.toNat = 0x205f ||
  c.toNat = 0x3000 || c.toNat = 0xfeff

/-- Line terminators: the characters JavaScript regex `.` does not match. -/
def isLineTerm (c : Char) : Bool :=
  c.toNat = 10 || c.toNat = 13 || c.toNat = 0x2028 || c.toNat = 0x2029

/-- ASCII digit, the JavaScript `\d` class. -/
def isDigitCh (c : Char) : Bool :=
  48 ≤ c.toNat && c.toNat ≤ 57

/-- ASCII lower-casing: the canonical form used by a case-insensitive
JavaScript regex whose pattern is ASCII (non-ASCII input characters are left
unchanged, matching the non-unicode `i`-flag canonicalisation). -/
def lowerAscii (c : Char) : Char :=
  if 65 ≤ c.toNat ∧ c.toNat ≤ 90 then Char.ofNat (c.toNat + 32) else c

/-- Model of `text.split('\n')`: split into lines at every newline, keeping
empty pieces (the empty text yields one empty line, as in JavaScript). -/
def splitLines : List Char → List (List Char)
  | [] => [[]]
  | c :: rest =>
    if c = '\n' then [] :: splitLines rest
    else
      match splitLines rest with
      | [] => [[c]]
      | l :: ls => (c :: l) :: ls

/-- Remove trailing JavaScript whitespace. -/
def trimRight (l : List Char) : List Char :=
  (l.reverse.dropWhile isJsSpace).reverse

/-- Model of `String.prototype.trim`: remove leading and trailing JavaScript
whitespace. -/
def jsTrim (l : List Char) : List Char :=
  (trimRight l).dropWhile isJsSpace

/-- Case-insensitive prefix test against an ASCII pattern, the building block
of a `/pat/i` substring search. -/
def ciStarts : List Char → List Char → Bool
  | [], _ => true
  | _ :: _, [] => false
  | p :: ps, c :: cs => (lowerAscii c == lowerAscii p) && ciStarts ps cs

/-- Model of `/pat/i.test(s)` for a literal ASCII pattern `pat`:
case-insensitive substring search. -/
def ciContains (pat : List Char) : List Char → Bool
  | [] => ciStarts pat []
  | c :: cs => ciStarts pat (c :: cs) || ciContains pat cs

/-- Model of matching `TEST_RESULT_REGEX`
`^(\s*)(ok|not ok)\s+(\d+)(?:\s+(?:-\s+)?(.*))?` against a line.  Returns
`(indent, passed, ordinal digits, remainder capture)` on success; the
remainder is the fourth capture with `undefined` collapsed to the empty
string, as done by `match[4] || ''` at every use site. -/
def matchTestResult (line : List Char) : Option (Nat × Bool × List Char × List Char) :=
  let step := fun (passed : Bool) (r1 : List Char) =>
    match r1 with
    | [] => none
    | c :: _ =>
      if isJsSpace c then
        let r2 := r1.dropWhile isJsSpace
        let ds := r2.takeWhile isDigitCh
        if ds.isEmpty then none
        else
          let r3 := r2.dropWhile isDigitCh
          let rest :=
            match r3 with
            | [] => ([] : List Char)
            | dch :: _ =>
              if isJsSpace dch then
                let r4 := r3.dropWhile isJsSpace
                match r4 with
                | '-' :: e :: r5 => if isJsSpace e then (e :: r5).dropWhile isJsSpace else r4
                | _ => r4
              else []
          some ((line.takeWhile isJsSpace).length, passed, ds,
            rest.takeWhile (fun ch => !isLineTerm ch))
      else none
  match line.dropWhile isJsSpace with
  | 'o' :: 'k' :: r1 => step true r1
  | 'n' :: 'o' :: 't' :: ' ' :: 'o' :: 'k' :: r1 => step false r1
  | _ => none

/-- Model of matching `TEST_PLAN_REGEX` `^(\s*)(\d+)\.\.(\d+)$` against a
line.  Returns the two ordinal digit captures.  The pattern is anchored at
the end of the string, so trailing characters (even whitespace) defeat it. -/
def matchTestPlan (line : List Char) : Option (List Char × List Char) :=
  let r0 := line.dropWhile isJsSpace
  let d1 := r0.takeWhile isDigitCh
  if d1.isEmpty then none
  else
    match r0.dropWhile isDigitCh with
    | '.' :: '.' :: r1 =>
      let d2 := r1.takeWhile isDigitCh
      if d2.isEmpty then none
      else if (r1.dropWhile isDigitCh).isEmpty then some (d1, d2) else none
    | _ => none

/-- Model of `rest.replace(/#.*$/, '')`: the pattern matches at the first `#`
that is followed by no line terminator, and removes everything from it to the
end of the string. -/
def stripHashComment : List Char → List Char
  | [] => []
  | c :: cs =>
    if c = '#' && cs.all (fun d => !isLineTerm d) then []
    else c :: stripHashComment cs

/-- Value of `parseInt(l, 10)` on a pure decimal digit string, as a `Nat`. -/
def natOfDigits (l : List Char) : Nat :=
  l.foldl (fun a c => a * 10 + (c.toNat - 48)) 0

/-- Decimal rendering of a `Nat`, the JavaScript template-string rendering of
an integral number. -/
def natDigits (n : Nat) : List Char :=
  Nat.toDigits 10 n

/-- Value of `parseFloat` on `intPart.fracPart`, exact as a rational. -/
def decimalVal (d f : List Char) : Rat :=
  (natOfDigits d : Rat) + (natOfDigits f : Rat) / (10 : Rat) ^ f.length

/-- The optional fraction step `(?:\.\d+)?` of the duration pattern: on the
remainder after the integer digits, succeed when a dot followed by at least
one digit comes next, returning the fractional digits and what follows them. -/
def durFracSplit : List Char → Option (List Char × List Char)
  | c1 :: t =>
    if c1 = '.' then
      match t with
      | e :: _ =>
        if isDigitCh e then some (t.takeWhile isDigitCh, t.dropWhile isDigitCh)
        else none
      | [] => none
    else none
  | [] => none

/-- The `(ms|s)\s*$` step of the duration pattern: `ms` is tried first, then
`s`, and the remainder must be whitespace up to the end of the string. -/
def durUnitMatch (dInt dFrac : List Char) : List Char → Option (List Char × List Char × Bool)
  | u1 :: u2 :: r6 =>
    if lowerAscii u1 == 'm' && lowerAscii u2 == 's' then
      if r6.all isJsSpace then some (dInt, dFrac, false) else none
    else if lowerAscii u1 == 's' then
      if (u2 :: r6).all isJsSpace then some (dInt, dFrac, true) else none
    else none
  | [u1] =>
    if lowerAscii u1 == 's' then some (dInt, dFrac, true) else none
  | [] => none

/-- Attempt to match the duration pattern `\s+in\s+(\d+(?:\.\d+)?)(ms|s)\s*$`
(case-insensitive) against an entire suffix `s` of the description.  Returns
`(integer digits, fractional digits, unit is seconds)` on success. -/
def tryDurationClause (s : List Char) : Option (List Char × List Char × Bool) :=
  match s with
  | [] => none
  | c :: _ =>
    if isJsSpace c then
      match s.dropWhile isJsSpace with
      | i1 :: n1 :: r2 =>
        if lowerAscii i1 == 'i' && lowerAscii n1 == 'n' then
          match r2 with
          | [] => none
          | d0 :: _ =>
            if isJsSpace d0 then
              let r3 := r2.dropWhile isJsSpace
              let dInt := r3.takeWhile isDigitCh
              if dInt.isEmpty then none
              else
                let r4 := r3.dropWhile isDigitCh
                let fr := durFracSplit r4
                let dFrac := match fr with | some (x, _) => x | none => []
                let r5 := match fr with | some (_, y) => y | none => r4
                durUnitMatch dInt dFrac r5
            else none
        else none
      | _ => none
    else none

/-- One scan step of the duration search: if the pattern accepts the whole
current suffix the match starts here with an empty kept prefix, otherwise the
current character joins the kept prefix of a later match (if any). -/
def fdmStep (c : Char) (t : Option (List Char × List Char × Bool))
    (r : Option (List Char × List Char × List Char × Bool)) :
    Option (List Char × List Char × List Char × Bool) :=
  match t with
  | some (d, f, sec) => some ([], d, f, sec)
  | none => r.map (fun q => (c :: q.1, q.2))

/-- Model of `description.match(/\s+in\s+(\d+(?:\.\d+)?)(ms|s)\s*$/i)` (and of
the `replace` with the same pattern): scan start positions left to right and
return the first suffix the pattern accepts, together with the prefix that
the `replace` keeps. -/
def findDurationMatch : List Char → Option (List Char × List Char × List Char × Bool)
  | [] => none
  | c :: cs => fdmStep c (tryDurationClause (c :: cs)) (findDurationMatch cs)

/-- The fractional digits of a matched fraction part: `fracDigits ('.' :: fd) = fd`
and `fracDigits [] = []`, the shape in which `durFracSplit` reports its match. -/
def fracDigits : List Char → List Char
  | '.' :: t => t
  | _ => []

/-- Reverse-direction reading of the `(ms|s)` unit at the head of a reversed
description (after trailing whitespace was consumed): `s…` or `sm…`. -/
def revDurUnit : List Char → Option (Bool × List Char)
  | [] => none
  | s1 :: rest1 =>
    if lowerAscii s1 = 's' then
      some (match rest1 with
        | m1 :: rest2a => if lowerAscii m1 = 'm' then (false, rest2a) else (true, m1 :: rest2a)
        | [] => (true, []))
    else none

/-- Reverse-direction reading of `(\d+(?:\.\d+)?)` from a reversed
description: fractional digits, an optional dot, then the integer digits. -/
def revDurNum (rest2 : List Char) : Option (List Char × List Char × List Char) :=
  let run1 := rest2.takeWhile isDigitCh
  if run1.isEmpty then none
  else
    match rest2.dropWhile isDigitCh with
    | c1 :: rest3a =>
      if c1 = '.' then
        let run2 := rest3a.takeWhile isDigitCh
        if run2.isEmpty then some (run1.reverse, [], c1 :: rest3a)
        else some (run2.reverse, run1.reverse, rest3a.dropWhile isDigitCh)
      else some (run1.reverse, [], c1 :: rest3a)
    | [] => some (run1.reverse, [], [])

/-- Reverse-direction reading of `\s+in` from a reversed description:
whitespace, then `n`, then `i`, then at least one whitespace character, which
is consumed maximally; returns the unconsumed remainder. -/
def revDurIn : List Char → Option (List Char)
  | [] => none
  | c :: r4 =>
    if isJsSpace c then
      match (c :: r4).dropWhile isJsSpace with
      | n1 :: i1 :: rest5 =>
        if lowerAscii n1 = 'n' ∧ lowerAscii i1 = 'i' then
          match rest5 with
          | [] => none
          | e :: _ => if isJsSpace e then some (rest5.dropWhile isJsSpace) else none
        else none
      | _ => none
    else none

/-- Reading the whole duration pattern from the end of the (reversed)
description: trailing whitespace, unit, number, `in`, leading whitespace.
Because every valid suffix match of the end-anchored duration pattern differs
only in leading whitespace, this deterministic reverse parse pins down the
unique leftmost match that the regex engine reports. -/
def revDurParse (r : List Char) : Option ((List Char × List Char × Bool) × List Char) :=
  match revDurUnit (r.dropWhile isJsSpace) with
  | none => none
  | some (sec, rest2) =>
    match revDurNum rest2 with
    | none => none
    | some (dInt, dFrac, rest4) =>
      match revDurIn rest4 with
      | none => none
      | some leftover => some ((dInt, dFrac, sec), leftover)

/-- One parsed test-result record, the object pushed onto
`currentGroup.tests` by `parseTapContent`. -/
structure TestRecord where
  line : Nat
  indent : Nat
  passed : Bool
  testNumber : Nat
  description : List Char
  duration : Option Rat
  hasTodo : Bool
  hasSkip : Bool
  fullLine : List Char
  output : List (List Char)
deriving DecidableEq, Repr

/-- One test group produced by `parseTapContent`. -/
structure TestGroup where
  name : List Char
  line : Nat
  tests : List TestRecord
deriving DecidableEq, Repr

/-- One `vscode.FoldingRange`; `isRegion` records whether it was constructed
with `FoldingRangeKind.Region` (only YAML blocks are). -/
structure FoldRange where
  start : Nat
  stop : Nat
  isRegion : Bool
deriving DecidableEq, Repr

/-- Description clean-up of `parseTapContent`:
`rest.replace(/#.*$/, '').trim() || Test ${testNumber}`. -/
def cleanDescription (ds rest : List Char) : List Char :=
  let d := jsTrim (stripHashComment rest)
  if d.isEmpty then "Test ".data ++ natDigits (natOfDigits ds) else d

/-- Construction of a test record from a matched test-result line, including
directive flags, description clean-up and duration extraction (the body of
the test-result branch of `parseTapContent`). -/
def buildTestRecord (i : Nat) (line : List Char) (ind : Nat) (passed : Bool)
    (ds rest : List Char) : TestRecord :=
  let hTodo := ciContains "# TODO".data line
  let hSkip := ciContains "# SKIP".data line
  let desc := cleanDescription ds rest
  match findDurationMatch desc with
  | none =>
    { line := i, indent := ind, passed := passed, testNumber := natOfDigits ds,
      description := desc, duration := none, hasTodo := hTodo, hasSkip := hSkip,
      fullLine := line, output := [] }
  | some (pre, dInt, dFrac, isSec) =>
    let v := decimalVal dInt dFrac
    { line := i, indent := ind, passed := passed, testNumber := natOfDigits ds,
      description := jsTrim pre, duration := some (if isSec then v * 1000 else v),
      hasTodo := hTodo, hasSkip := hSkip, fullLine := line, output := [] }

/-- Group name for an explicit test plan: `Tests ${m[2]}..${m[3]}`. -/
def planGroupName (d1 d2 : List Char) : List Char :=
  "Tests ".data ++ d1 ++ "..".data ++ d2

/-- Group name for an implicit ordinal-reset group:
`Tests (group ${groups.length + 1})`. -/
def autoGroupName (k : Nat) : List Char :=
  "Tests (group ".data ++ natDigits k ++ ")".data

/-- Append an output line to the last test of a list (the active test is
always the most recently pushed test of the current group). -/
def addOutputLast (line : List Char) : List TestRecord → List TestRecord
  | [] => []
  | [t] => [{ t with output := t.output ++ [line] }]
  | t :: ts => t :: addOutputLast line ts

/-- Append an output line to the current test of a group. -/
def appendOutputToLast (line : List Char) (g : TestGroup) : TestGroup :=
  { g with tests := addOutputLast line g.tests }

/-- The main loop of `parseTapContent`, one step per line.  State: remaining
lines, current line index, sealed groups so far, the current group (if any),
whether an active test pointer is set (`currentTest !== null`; when set it is
the last test of the current group), and `lastTestNumber`. -/
def parseLoop : List (List Char) → Nat → List TestGroup → Option TestGroup → Bool → Nat →
    List TestGroup
  | [], _, acc, cur, _, _ => acc ++ cur.toList
  | line :: rest, i, acc, cur, hasCur, lastN =>
    match matchTestPlan line with
    | some (d1, d2) =>
      parseLoop rest (i + 1) (acc ++ cur.toList)
        (some { name := planGroupName d1 d2, line := i, tests := [] }) false 0
    | none =>
      match matchTestResult line with
      | some (ind, passed, ds, restTxt) =>
        let r := buildTestRecord i line ind passed ds restTxt
        let n := natOfDigits ds
        match cur with
        | some g =>
          if n ≤ lastN ∧ g.tests ≠ [] then
            let acc2 := acc ++ [g]
            parseLoop rest (i + 1) acc2
              (some { name := autoGroupName (acc2.length + 1), line := i, tests := [r] }) true n
          else
            parseLoop rest (i + 1) acc (some { g with tests := g.tests ++ [r] }) true n
        | none =>
          parseLoop rest (i + 1) acc
            (some { name := "Tests".data, line := i, tests := [r] }) true n
      | none =>
        if hasCur ∧ jsTrim line ≠ [] then
          parseLoop rest (i + 1) acc (cur.map (appendOutputToLast line)) hasCur lastN
        else
          parseLoop rest (i + 1) acc cur hasCur lastN

/-- Model of `parseTapContent(text)`. -/
def parseTapContent (text : String) : List TestGroup :=
  parseLoop (splitLines text.data) 0 [] none false 0

/-- Forward scan for the first following line whose trimmed content is `...`
(the inner `for (let j = i + 1; ...)` loop of the folding provider), relative
to the list of lines after the opener. -/
def findClose : List (List Char) → Option Nat
  | [] => none
  | l :: ls =>
    if jsTrim l = ['.', '.', '.'] then some 0
    else (findClose ls).map (· + 1)

/-- The fold pushed when a current test line is closed at line index `j`:
`if (currentTestLine >= 0 && j > currentTestLine + 1) push(currentTestLine, j - 1)`. -/
def closeFold : Option Nat → Nat → List FoldRange
  | some c, j => if c + 1 < j then [{ start := c, stop := j - 1, isRegion := false }] else []
  | none, _ => []

/-- The loop of `TapFoldingProvider.provideFoldingRanges` (the current-test
policy variant): state is the remaining lines, the current line index, and
`currentTestLine` (`none` models `-1`).  At the end of input the index equals
the total number of lines. -/
def foldLoop : List (List Char) → Nat → Option Nat → List FoldRange
  | [], n, cur => closeFold cur n
  | line :: rest, i, cur =>
    if (matchTestResult line).isSome then
      closeFold cur i ++ foldLoop rest (i + 1) (some i)
    else if (matchTestPlan line).isSome then
      closeFold cur i ++ foldLoop rest (i + 1) none
    else if jsTrim line = ['-', '-', '-'] then
      (match findClose rest with
       | some k => [{ start := i, stop := i + 1 + k, isRegion := true }]
       | none => []) ++ foldLoop rest (i + 1) cur
    else
      foldLoop rest (i + 1) cur

/-- Model of `TapFoldingProvider.provideFoldingRanges` (current-test policy). -/
def provideFoldingRanges (text : String) : List FoldRange :=
  foldLoop (splitLines text.data) 0 none

/-- Presentation state given to a test item by `updateTestsForDocument`. -/
inductive Presentation
  | passed
  | failed
  | skipped
deriving DecidableEq, Repr

/-- Presentation mapping of `updateTestsForDocument`: `hasSkip` is skipped;
`hasTodo` is passed when passed and skipped when failed; otherwise pass and
fail map directly. -/
def presentTest (t : TestRecord) : Presentation :=
  if t.hasSkip then Presentation.skipped
  else if t.hasTodo then (if t.passed then Presentation.passed else Presentation.skipped)
  else if t.passed then Presentation.passed
  else Presentation.failed

/-! ### Basic list and character-class lemmas -/

theorem all_takeWhile_self {p : Char → Bool} : ∀ l : List Char, (l.takeWhile p).all p
  | [] => rfl
  | c :: cs => by
    by_cases h : p c = true
    · simp [List.takeWhile_cons, h, all_takeWhile_self cs]
    · simp [List.takeWhile_cons, h]

theorem takeWhile_eq_self_of_all {p : Char → Bool} :
    ∀ {l : List Char}, l.all p = true → l.takeWhile p = l
  | [], _ => rfl
  | c :: cs, h => by
    simp only [List.all_cons, Bool.and_eq_true] at h
    simp [List.takeWhile_cons, h.1, takeWhile_eq_self_of_all h.2]

theorem dropWhile_eq_nil_of_all {p : Char → Bool} :
    ∀ {l : List Char}, l.all p = true → l.dropWhile p = []
  | [], _ => rfl
  | c :: cs, h => by
    simp only [List.all_cons, Bool.and_eq_true] at h
    simp [List.dropWhile_cons, h.1, dropWhile_eq_nil_of_all h.2]

theorem dropWhile_append_of_all {p : Char → Bool} :
    ∀ {a : List Char} (b : List Char), a.all p = true →
      (a ++ b).dropWhile p = b.dropWhile p
  | [], _, _ => rfl
  | c :: cs, b, h => by
    simp only [List.all_cons, Bool.and_eq_true] at h
    simp [List.dropWhile_cons, h.1, dropWhile_append_of_all b h.2]

theorem takeWhile_append_of_all {p : Char → Bool} :
    ∀ {a : List Char} (b : List Char), a.all p = true →
      (a ++ b).takeWhile p = a ++ b.takeWhile p
  | [], _, _ => rfl
  | c :: cs, b, h => by
    simp only [List.all_cons, Bool.and_eq_true] at h
    simp [List.takeWhile_cons, h.1, takeWhile_append_of_all b h.2]

theorem dropWhile_cons_neg {p : Char → Bool} {c : Char} (l : List Char) (h : p c = false) :
    (c :: l).dropWhile p = c :: l := by
  simp [List.dropWhile_cons, h]

theorem takeWhile_cons_neg {p : Char → Bool} {c : Char} (l : List Char) (h : p c = false) :
    (c :: l).takeWhile p = [] := by
  simp [List.takeWhile_cons, h]

theorem space_lowerAscii {c : Char} (h : isJsSpace c = true) : lowerAscii c = c := by
  have hn : ¬ (65 ≤ c.toNat ∧ c.toNat ≤ 90) := by
    simp only [isJsSpace, Bool.or_eq_true, decide_eq_true_eq, Bool.and_eq_true] at h
    omega
  simp [lowerAscii, hn]

theorem digit_lowerAscii {c : Char} (h : isDigitCh c = true) : lowerAscii c = c := by
  have hn : ¬ (65 ≤ c.toNat ∧ c.toNat ≤ 90) := by
    simp only [isDigitCh, Bool.and_eq_true, decide_eq_true_eq] at h
    omega
  simp [lowerAscii, hn]

theorem not_space_of_lowerAscii {c t : Char} (h : lowerAscii c = t)
    (ht : isJsSpace t = false) : isJsSpace c = false := by
  cases hb : isJsSpace c with
  | false => rfl
  | true =>
    have hc : c = t := (space_lowerAscii hb).symm.trans h
    rw [hc] at hb
    rw [hb] at ht
    exact absurd ht (by simp)

theorem not_digit_of_lowerAscii {c t : Char} (h : lowerAscii c = t)
    (ht : isDigitCh t = false) : isDigitCh c = false := by
  cases hb : isDigitCh c with
  | false => rfl
  | true =>
    have hc : c = t := (digit_lowerAscii hb).symm.trans h
    rw [hc] at hb
    rw [hb] at ht
    exact absurd ht (by simp)

theorem digit_not_space {c : Char} (h : isDigitCh c = true) : isJsSpace c = false := by
  simp only [isDigitCh, Bool.and_eq_true, decide_eq_true_eq] at h
  rw [Bool.eq_false_iff]
  intro hs
  simp only [isJsSpace, Bool.or_eq_true, decide_eq_true_eq, Bool.and_eq_true] at hs
  omega

/-! ### C1: concrete parse scenario -/

/-- C1: for the input `"1..2\nok 1 - a\nnot ok 2 - b # TODO later\n"`, parse
returns exactly one group, named from the plan range `1..2`, with two records
in order: the first passed with ordinal 1 and description `"a"`; the second
failed with ordinal 2, `hasTodo` set and description `"b"` (the `# TODO
later` comment stripped); and under the presentation mapping the records
present as passed and skipped respectively. -/
theorem c1_parse_scenario :
    parseTapContent "1..2\nok 1 - a\nnot ok 2 - b # TODO later\n" =
      [{ name := "Tests 1..2".data, line := 0,
         tests :=
           [{ line := 1, indent := 0, passed := true, testNumber := 1,
              description := "a".data, duration := none, hasTodo := false,
              hasSkip := false, fullLine := "ok 1 - a".data, output := [] },
            { line := 2, indent := 0, passed := false, testNumber := 2,
              description := "b".data, duration := none, hasTodo := true,
              hasSkip := false, fullLine := "not ok 2 - b # TODO later".data,
              output := [] }] }] ∧
    (parseTapContent "1..2\nok 1 - a\nnot ok 2 - b # TODO later\n").map
        (fun g => g.tests.map presentTest) =
      [[Presentation.passed, Presentation.skipped]] := by
  constructor
  · rfl
  · rfl

/-! ### C2: ordinals within a group are monotonically non-decreasing -/

theorem buildTestRecord_testNumber (i : Nat) (line : List Char) (ind : Nat) (p : Bool)
    (ds rest : List Char) :
    (buildTestRecord i line ind p ds rest).testNumber = natOfDigits ds := by
  simp only [buildTestRecord]
  split <;> rfl

theorem addOutputLast_map_testNumber (line : List Char) :
    ∀ ts : List TestRecord,
      (addOutputLast line ts).map (fun t => t.testNumber) = ts.map (fun t => t.testNumber)
  | [] => rfl
  | [_] => rfl
  | t :: t2 :: ts => by
    simp only [addOutputLast, List.map_cons, List.cons.injEq, true_and]
    have := addOutputLast_map_testNumber line (t2 :: ts)
    simpa using this

theorem parseLoop_chain :
    ∀ (lines : List (List Char)) (i : Nat) (acc : List TestGroup) (cur : Option TestGroup)
      (hasCur : Bool) (lastN : Nat),
      (∀ g ∈ acc, List.Chain' (· ≤ ·) (g.tests.map (fun t => t.testNumber))) →
      (∀ g, cur = some g →
        List.Chain' (· ≤ ·) (g.tests.map (fun t => t.testNumber)) ∧
        ∀ x ∈ (g.tests.map (fun t => t.testNumber)).getLast?, x ≤ lastN) →
      ∀ g ∈ parseLoop lines i acc cur hasCur lastN,
        List.Chain' (· ≤ ·) (g.tests.map (fun t => t.testNumber))
  | [], i, acc, cur, hasCur, lastN, hacc, hcur, g, hg => by
    simp only [parseLoop, List.mem_append] at hg
    rcases hg with h | h
    · exact hacc g h
    · cases cur with
      | none => simp at h
      | some g0 =>
        simp only [Option.toList_some, List.mem_singleton] at h
        rw [h]
        exact (hcur g0 rfl).1
  | line :: rest, i, acc, cur, hasCur, lastN, hacc, hcur, g, hg => by
    cases hplan : matchTestPlan line with
    | some pr =>
      obtain ⟨d1, d2⟩ := pr
      simp only [parseLoop, hplan] at hg
      refine parseLoop_chain rest _ _ _ _ _ ?_ ?_ g hg
      · intro g2 hg2
        rcases List.mem_append.mp hg2 with h | h
        · exact hacc g2 h
        · cases cur with
          | none => simp at h
          | some g0 =>
            simp only [Option.toList_some, List.mem_singleton] at h
            rw [h]
            exact (hcur g0 rfl).1
      · intro g2 hg2
        obtain rfl := Option.some.inj hg2
        exact ⟨by simp, by simp⟩
    | none =>
      cases hres : matchTestResult line with
      | some q =>
        obtain ⟨ind, passed, ds, restTxt⟩ := q
        cases cur with
        | some g0 =>
          simp only [parseLoop, hplan, hres] at hg
          by_cases hc : natOfDigits ds ≤ lastN ∧ g0.tests ≠ []
          · rw [if_pos hc] at hg
            refine parseLoop_chain rest _ _ _ _ _ ?_ ?_ g hg
            · intro g2 hg2
              rcases List.mem_append.mp hg2 with h | h
              · exact hacc g2 h
              · simp only [List.mem_singleton] at h
                rw [h]
                exact (hcur g0 rfl).1
            · intro g2 hg2
              obtain rfl := Option.some.inj hg2
              constructor
              · simp
              · simp [buildTestRecord_testNumber]
          · rw [if_neg hc] at hg
            refine parseLoop_chain rest _ _ _ _ _ hacc ?_ g hg
            intro g2 hg2
            obtain rfl := Option.some.inj hg2
            have h0 := hcur g0 rfl
            constructor
            · simp only [List.map_append, List.map_cons, List.map_nil]
              rw [List.chain'_append]
              refine ⟨h0.1, by simp, ?_⟩
              intro x hx y hy
              simp only [List.head?_cons, Option.mem_def, Option.some.injEq] at hy
              subst hy
              rw [buildTestRecord_testNumber]
              by_cases ht : g0.tests = []
              · rw [ht] at hx
                simp at hx
              · have hn : ¬ natOfDigits ds ≤ lastN := fun hle => hc ⟨hle, ht⟩
                have hxl := h0.2 x hx
                omega
            · intro x hx
              simp only [List.map_append, List.map_cons, List.map_nil] at hx
              rw [List.getLast?_concat] at hx
              simp only [Option.mem_def, Option.some.injEq] at hx
              subst hx
              rw [buildTestRecord_testNumber]
        | none =>
          simp only [parseLoop, hplan, hres] at hg
          refine parseLoop_chain rest _ _ _ _ _ hacc ?_ g hg
          intro g2 hg2
          obtain rfl := Option.some.inj hg2
          exact ⟨by simp, by simp [buildTestRecord_testNumber]⟩
      | none =>
        simp only [parseLoop, hplan, hres] at hg
        by_cases hout : hasCur = true ∧ jsTrim line ≠ []
        · rw [if_pos hout] at hg
          refine parseLoop_chain rest _ _ _ _ _ hacc ?_ g hg
          intro g2 hg2
          cases cur with
          | none => simp at hg2
          | some g0 =>
            simp only [Option.map_some'] at hg2
            obtain rfl := Option.some.inj hg2
            have h0 := hcur g0 rfl
            constructor
            · simpa [appendOutputToLast, addOutputLast_map_testNumber] using h0.1
            · simpa [appendOutputToLast, addOutputLast_map_testNumber] using h0.2
        · rw [if_neg hout] at hg
          exact parseLoop_chain rest _ _ _ _ _ hacc hcur g hg

/-- C2: first conjunct — in every group produced by the grouping pass, the
sequence of test ordinals is monotonically non-decreasing.  Second conjunct —
whenever a test-result line's ordinal is less than or equal to the last
ordinal seen and the current group is non-empty (with no intervening plan
line: the line matches the test-result pattern, not the plan pattern), the
step seals the current group unchanged into the output, starts a new
auto-named group (`Tests (group ${groups.length + 1})`, the count taken
after the seal) and places the resetting record in the new group, so it
never lands in the old group.  The hypothesis is `≤`, so this covers the
equality case as well. -/
theorem c2_group_ordinals_monotone :
    (∀ (text : String) (g : TestGroup), g ∈ parseTapContent text →
      List.Chain' (· ≤ ·) (g.tests.map (fun t => t.testNumber))) ∧
    (∀ (line : List Char) (lines : List (List Char)) (i : Nat) (acc : List TestGroup)
        (g : TestGroup) (hasCur : Bool) (lastN : Nat) (ind : Nat) (passed : Bool)
        (ds restTxt : List Char),
      matchTestPlan line = none →
      matchTestResult line = some (ind, passed, ds, restTxt) →
      natOfDigits ds ≤ lastN → g.tests ≠ [] →
      parseLoop (line :: lines) i acc (some g) hasCur lastN =
        parseLoop lines (i + 1) (acc ++ [g])
          (some { name := autoGroupName ((acc ++ [g]).length + 1), line := i,
                  tests := [buildTestRecord i line ind passed ds restTxt] })
          true (natOfDigits ds)) := by
  constructor
  · intro text g hg
    exact parseLoop_chain (splitLines text.data) 0 [] none false 0
      (fun _ h => absurd h (List.not_mem_nil _))
      (fun _ h => Option.noConfusion h) g hg
  · intro line lines i acc g hasCur lastN ind passed ds restTxt hplan hres hle hne
    simp only [parseLoop, hplan, hres]
    rw [if_pos ⟨hle, hne⟩]

/-- C2 witness: the first group of `"ok 2\nok 1"` keeps the single ordinal 2
(the resetting `ok 1` opened a second group), and the reset step equation
applied to the concrete state reached after `ok 2` (the equality-adjacent
case ordinal 1 ≤ last ordinal 2). -/
theorem c2_witness :
    (({ name := "Tests".data, line := 0,
        tests := [{ line := 0, indent := 0, passed := true, testNumber := 2,
                    description := "Test 2".data, duration := none, hasTodo := false,
                    hasSkip := false, fullLine := "ok 2".data, output := [] }] } : TestGroup)
      ∈ parseTapContent "ok 2\nok 1") ∧
    List.Chain' (· ≤ ·)
      (({ name := "Tests".data, line := 0,
          tests := [{ line := 0, indent := 0, passed := true, testNumber := 2,
                      description := "Test 2".data, duration := none, hasTodo := false,
                      hasSkip := false, fullLine := "ok 2".data, output := [] }] } : TestGroup).tests.map
        (fun t => t.testNumber)) ∧
    parseLoop ["ok 1".data] 1 []
      (some { name := "Tests".data, line := 0,
              tests := [{ line := 0, indent := 0, passed := true, testNumber := 2,
                          description := "Test 2".data, duration := none, hasTodo := false,
                          hasSkip := false, fullLine := "ok 2".data, output := [] }] })
      true 2 =
    parseLoop [] 2
      ([] ++ [{ name := "Tests".data, line := 0,
                tests := [{ line := 0, indent := 0, passed := true, testNumber := 2,
                            description := "Test 2".data, duration := none, hasTodo := false,
                            hasSkip := false, fullLine := "ok 2".data, output := [] }] }])
      (some { name := autoGroupName ((([] : List TestGroup) ++
                ([{ name := "Tests".data, line := 0,
                    tests := [{ line := 0, indent := 0, passed := true, testNumber := 2,
                                description := "Test 2".data, duration := none,
                                hasTodo := false, hasSkip := false,
                                fullLine := "ok 2".data, output := [] }] }] :
                  List TestGroup)).length + 1),
              line := 1,
              tests := [buildTestRecord 1 "ok 1".data 0 true "1".data []] })
      true (natOfDigits "1".data) :=
  ⟨by decide,
   c2_group_ordinals_monotone.1 "ok 2\nok 1" _ (by decide),
   c2_group_ordinals_monotone.2 "ok 1".data [] 1 []
     { name := "Tests".data, line := 0,
       tests := [{ line := 0, indent := 0, passed := true, testNumber := 2,
                   description := "Test 2".data, duration := none, hasTodo := false,
                   hasSkip := false, fullLine := "ok 2".data, output := [] }] }
     true 2 0 true "1".data [] (by decide) (by decide) (by decide) (by decide)⟩

/-! ### C3: behaviour of the grouping pass on a test-plan line -/

/-- C3: on a test-plan line the grouping pass seals the current group (if
one exists) even when it contains no tests, starts a new empty group named
from the plan's ordinal range, resets the last-ordinal state to 0, and
clears the active test pointer, so no later output line attaches to a test
from before the plan line.  In particular a plan line with start ordinal 1
begins a fresh group.  The second and third conjuncts exhibit the sealed
empty group and the detachment of output concretely. -/
theorem c3_plan_line_step :
    (∀ (lines : List (List Char)) (i : Nat) (acc : List TestGroup)
        (cur : Option TestGroup) (hasCur : Bool) (lastN : Nat) (line d1 d2 : List Char),
      matchTestPlan line = some (d1, d2) →
      parseLoop (line :: lines) i acc cur hasCur lastN =
        parseLoop lines (i + 1) (acc ++ cur.toList)
          (some { name := planGroupName d1 d2, line := i, tests := [] }) false 0) ∧
    parseTapContent "1..2\n1..3" =
      [{ name := "Tests 1..2".data, line := 0, tests := [] },
       { name := "Tests 1..3".data, line := 1, tests := [] }] ∧
    parseTapContent "ok 1\nout\n1..2\nafter" =
      [{ name := "Tests".data, line := 0,
         tests := [{ line := 0, indent := 0, passed := true, testNumber := 1,
                     description := "Test 1".data, duration := none, hasTodo := false,
                     hasSkip := false, fullLine := "ok 1".data,
                     output := ["out".data] }] },
       { name := "Tests 1..2".data, line := 2, tests := [] }] := by
  refine ⟨?_, by rfl, by rfl⟩
  intro lines i acc cur hasCur lastN line d1 d2 hplan
  simp only [parseLoop, hplan]

/-- C3 witness: the step equation applied to the single plan line `1..2` in
an arbitrary concrete state. -/
theorem c3_witness :
    parseLoop ["1..2".data] 5 [] none false 7 =
      [{ name := "Tests 1..2".data, line := 5, tests := [] }] := by
  have h := c3_plan_line_step.1 [] 5 [] none false 7 "1..2".data ['1'] ['2'] (by decide)
  rw [h]
  rfl

/-! ### C7: test-plan recognition (corrected: no trailing whitespace) -/

/-- C7 counterexample: the line `"1..2 "` (trailing space) trims to `"1..2"`,
which the plan pattern accepts, so the claim predicts recognition; but the
structural parser's `TEST_PLAN_REGEX` is end-anchored without a trailing
`\s*`, rejects the raw line, and `parseTapContent` produces no group for it,
while the same line without the trailing space yields a plan group. -/
theorem c7_counterexample :
    jsTrim "1..2 ".data = "1..2".data ∧
    (matchTestPlan "1..2".data).isSome = true ∧
    matchTestPlan "1..2 ".data = none ∧
    parseTapContent "1..2 " = [] ∧
    parseTapContent "1..2" = [{ name := "Tests 1..2".data, line := 0, tests := [] }] := by
  refine ⟨by rfl, by rfl, by rfl, by rfl, by rfl⟩

theorem matchTestPlan_some_decomp {line a b : List Char}
    (h : matchTestPlan line = some (a, b)) :
    line = line.takeWhile isJsSpace ++ a ++ '.' :: '.' :: b ∧
    (line.takeWhile isJsSpace).all isJsSpace = true ∧
    a ≠ [] ∧ a.all isDigitCh = true ∧ b ≠ [] ∧ b.all isDigitCh = true := by
  simp only [matchTestPlan] at h
  split at h
  · exact absurd h (by simp)
  · rename_i hd1
    split at h
    · rename_i r1 heq
      split at h
      · exact absurd h (by simp)
      · rename_i hd2
        split at h
        · rename_i hr4
          injection h with h2
          injection h2 with h3 h4
          subst h3
          subst h4
          have hline := (List.takeWhile_append_dropWhile (p := isJsSpace) (l := line)).symm
          have hsplit := (List.takeWhile_append_dropWhile (p := isDigitCh)
            (l := line.dropWhile isJsSpace)).symm
          have hr4nil : r1.dropWhile isDigitCh = [] := by
            rwa [List.isEmpty_iff] at hr4
          have hb : r1.takeWhile isDigitCh = r1 := by
            have hx := List.takeWhile_append_dropWhile (p := isDigitCh) (l := r1)
            rwa [hr4nil, List.append_nil] at hx
          refine ⟨?_, all_takeWhile_self line, ?_, all_takeWhile_self _, ?_, all_takeWhile_self _⟩
          · conv_lhs => rw [hline, hsplit, heq]
            rw [hb]
            simp [List.append_assoc]
          · intro hnil
            rw [hnil] at hd1
            simp at hd1
          · intro hnil
            rw [hnil] at hd2
            simp at hd2
        · exact absurd h (by simp)
    · exact absurd h (by simp)

/-- C7 amended: a line is recognized as a test-plan line by the structural
parser exactly when it consists of optional leading whitespace, one or more
digits, the two dots, and one or more digits with nothing at all after them;
leading whitespace is allowed but trailing whitespace is not (the claim's
"after trimming" rule holds only for the first variant's folding provider,
which trims before matching). -/
theorem c7_plan_recognition (line : List Char) :
    (matchTestPlan line).isSome = true ↔
      ∃ w d1 d2, line = w ++ d1 ++ '.' :: '.' :: d2 ∧
        w.all isJsSpace = true ∧ d1 ≠ [] ∧ d1.all isDigitCh = true ∧
        d2 ≠ [] ∧ d2.all isDigitCh = true := by
  constructor
  · intro h
    rw [Option.isSome_iff_exists] at h
    obtain ⟨⟨a, b⟩, hab⟩ := h
    obtain ⟨hline, hw, ha, haall, hb, hball⟩ := matchTestPlan_some_decomp hab
    exact ⟨line.takeWhile isJsSpace, a, b, hline, hw, ha, haall, hb, hball⟩
  · rintro ⟨w, d1, d2, rfl, hw, hd1ne, hd1all, hd2ne, hd2all⟩
    cases d1 with
    | nil => exact absurd rfl hd1ne
    | cons c1 d1' =>
      have hc1 : isDigitCh c1 = true := by
        simp only [List.all_cons, Bool.and_eq_true] at hd1all
        exact hd1all.1
      have hdrop : (w ++ (c1 :: d1') ++ '.' :: '.' :: d2).dropWhile isJsSpace =
          (c1 :: d1') ++ '.' :: '.' :: d2 := by
        rw [List.append_assoc, dropWhile_append_of_all _ hw, List.cons_append,
          dropWhile_cons_neg _ (digit_not_space hc1)]
      have htake : ((c1 :: d1') ++ '.' :: '.' :: d2).takeWhile isDigitCh = c1 :: d1' := by
        rw [takeWhile_append_of_all _ hd1all, takeWhile_cons_neg _ (by decide), List.append_nil]
      have hdrop2 : ((c1 :: d1') ++ '.' :: '.' :: d2).dropWhile isDigitCh = '.' :: '.' :: d2 := by
        rw [dropWhile_append_of_all _ hd1all, dropWhile_cons_neg _ (by decide)]
      simp only [matchTestPlan, hdrop, htake, hdrop2]
      rw [if_neg (by simp), takeWhile_eq_self_of_all hd2all,
        if_neg (by simp [List.isEmpty_iff, hd2ne]), dropWhile_eq_nil_of_all hd2all,
        if_pos (by simp)]
      rfl

/-! ### C6: current-test folding rule -/

/-- C6: while a current test line `c` is open, a test-result or test-plan
line at index `i` emits the fold region `(c, i-1)` exactly when `i > c + 1`,
and at end of input an open current test at `c` emits `(c, lastLine)` exactly
when the last line index exceeds `c`.  A single blank line between two
test-result lines is discarded as parse output and no fold region starts at
it (the fold `(0, 1)` starts at the first test line). -/
theorem c6_current_test_fold_rule :
    (∀ (rest : List (List Char)) (i c : Nat) (line : List Char),
        (matchTestResult line).isSome = true →
        foldLoop (line :: rest) i (some c) =
          (if c + 1 < i then [{ start := c, stop := i - 1, isRegion := false }] else []) ++
            foldLoop rest (i + 1) (some i)) ∧
    (∀ (rest : List (List Char)) (i c : Nat) (line : List Char),
        matchTestResult line = none → (matchTestPlan line).isSome = true →
        foldLoop (line :: rest) i (some c) =
          (if c + 1 < i then [{ start := c, stop := i - 1, isRegion := false }] else []) ++
            foldLoop rest (i + 1) none) ∧
    (∀ n c : Nat,
        foldLoop [] n (some c) =
          if c + 1 < n then [{ start := c, stop := n - 1, isRegion := false }] else []) ∧
    provideFoldingRanges "ok 1\n\nok 2" = [{ start := 0, stop := 1, isRegion := false }] ∧
    (parseTapContent "ok 1\n\nok 2").map (fun g => g.tests.map (fun t => t.output)) =
      [[[], []]] := by
  refine ⟨?_, ?_, ?_, by rfl, by rfl⟩
  · intro rest i c line h
    simp [foldLoop, closeFold, h]
  · intro rest i c line h0 h
    simp [foldLoop, closeFold, h0, h]
  · intro n c
    simp [foldLoop, closeFold]

/-- C6 witness: the step rule applied to a concrete test-result line with the
current test open three lines earlier. -/
theorem c6_witness :
    foldLoop ["ok 3".data] 5 (some 0) = [{ start := 0, stop := 4, isRegion := false }] := by
  have h := c6_current_test_fold_rule.1 [] 5 0 "ok 3".data (by decide)
  rw [h]
  rfl

/-! ### C8: totality on every input, empty outputs for the empty string -/

theorem parseLoop_all_unrecognized :
    ∀ (lines : List (List Char)) (i : Nat),
      (∀ l ∈ lines, matchTestPlan l = none ∧ matchTestResult l = none) →
      parseLoop lines i [] none false 0 = []
  | [], _, _ => rfl
  | line :: rest, i, h => by
    have hl := h line (List.mem_cons_self line rest)
    have hrest : ∀ l ∈ rest, matchTestPlan l = none ∧ matchTestResult l = none :=
      fun l hm => h l (List.mem_cons_of_mem line hm)
    simp only [parseLoop, hl.1, hl.2]
    rw [if_neg (by simp)]
    exact parseLoop_all_unrecognized rest (i + 1) hrest

theorem foldLoop_all_unrecognized :
    ∀ (lines : List (List Char)) (i : Nat),
      (∀ l ∈ lines, matchTestResult l = none ∧ matchTestPlan l = none ∧
        jsTrim l ≠ ['-', '-', '-']) →
      foldLoop lines i none = []
  | [], _, _ => rfl
  | line :: rest, i, h => by
    have hl := h line (List.mem_cons_self line rest)
    have hrest : ∀ l ∈ rest, matchTestResult l = none ∧ matchTestPlan l = none ∧
        jsTrim l ≠ ['-', '-', '-'] :=
      fun l hm => h l (List.mem_cons_of_mem line hm)
    simp only [foldLoop, hl.1, hl.2.1, Option.isSome_none]
    rw [if_neg (by simp), if_neg (by simp), if_neg hl.2.2]
    exact foldLoop_all_unrecognized rest (i + 1) hrest

/-- C8: the parse and folding passes are total functions that reject no
input; the empty string yields no groups and no fold regions, and an input
whose lines are all unrecognized (no test-result match, no test-plan match,
no YAML opener) contributes no structured entity at all. -/
theorem c8_total_and_empty :
    (parseTapContent "" = [] ∧ provideFoldingRanges "" = []) ∧
    (∀ text : String,
      (∀ l ∈ splitLines text.data, matchTestPlan l = none ∧ matchTestResult l = none ∧
        jsTrim l ≠ ['-', '-', '-']) →
      parseTapContent text = [] ∧ provideFoldingRanges text = []) := by
  refine ⟨⟨by rfl, by rfl⟩, ?_⟩
  intro text h
  constructor
  · exact parseLoop_all_unrecognized _ 0 (fun l hm => ⟨(h l hm).1, (h l hm).2.1⟩)
  · exact foldLoop_all_unrecognized _ 0 (fun l hm => ⟨(h l hm).2.1, (h l hm).1, (h l hm).2.2⟩)

/-- C8 witness: a two-line input of plain prose parses to no groups and no
fold regions. -/
theorem c8_witness :
    parseTapContent "hello\nworld" = [] ∧ provideFoldingRanges "hello\nworld" = [] :=
  c8_total_and_empty.2 "hello\nworld" (by decide)

/-! ### C9: case-insensitive directive detection -/

theorem ciStarts_iff (pat : List Char) : ∀ s : List Char,
    ciStarts pat s = true ↔
      ∃ mid t, s = mid ++ t ∧ mid.map lowerAscii = pat.map lowerAscii := by
  induction pat with
  | nil =>
    intro s
    simp only [ciStarts, List.map_nil]
    constructor
    · intro _
      exact ⟨[], s, rfl, rfl⟩
    · intro _
      trivial
  | cons p ps ih =>
    intro s
    cases s with
    | nil =>
      simp only [ciStarts, List.map_cons]
      constructor
      · intro h
        exact absurd h (by simp)
      · rintro ⟨mid, t, heq, hm⟩
        cases mid with
        | nil => simp at hm
        | cons m ms => simp at heq
    | cons c cs =>
      simp only [ciStarts, Bool.and_eq_true, beq_iff_eq, List.map_cons]
      rw [ih cs]
      constructor
      · rintro ⟨h1, mid, t, heq, hm⟩
        exact ⟨c :: mid, t, by simp [heq], by simp [hm, h1]⟩
      · rintro ⟨mid, t, heq, hm⟩
        cases mid with
        | nil => simp at hm
        | cons m ms =>
          rw [List.cons_append] at heq
          injection heq with h1 h2
          simp only [List.map_cons, List.cons.injEq] at hm
          subst h1
          exact ⟨hm.1, ms, t, h2, hm.2⟩

theorem ciContains_iff (pat : List Char) : ∀ s : List Char,
    ciContains pat s = true ↔
      ∃ a mid b, s = a ++ mid ++ b ∧ mid.map lowerAscii = pat.map lowerAscii
  | [] => by
    simp only [ciContains]
    rw [ciStarts_iff]
    constructor
    · rintro ⟨mid, t, heq, hm⟩
      exact ⟨[], mid, t, by simpa using heq, hm⟩
    · rintro ⟨a, mid, b, heq, hm⟩
      refine ⟨mid, b, ?_, hm⟩
      have ha : a = [] := by
        cases a with
        | nil => rfl
        | cons x xs => simp at heq
      rw [ha] at heq
      simpa using heq
  | c :: cs => by
    simp only [ciContains, Bool.or_eq_true]
    rw [ciStarts_iff, ciContains_iff pat cs]
    constructor
    · rintro (⟨mid, t, heq, hm⟩ | ⟨a, mid, b, heq, hm⟩)
      · exact ⟨[], mid, t, by simpa using heq, hm⟩
      · exact ⟨c :: a, mid, b, by simp [heq], hm⟩
    · rintro ⟨a, mid, b, heq, hm⟩
      cases a with
      | nil =>
        left
        exact ⟨mid, b, by simpa using heq, hm⟩
      | cons a0 as =>
        right
        rw [List.cons_append, List.cons_append] at heq
        injection heq with h1 h2
        exact ⟨as, mid, b, by rw [h2, List.append_assoc], hm⟩

theorem buildTestRecord_hasTodo (i : Nat) (line : List Char) (ind : Nat) (p : Bool)
    (ds rest : List Char) :
    (buildTestRecord i line ind p ds rest).hasTodo = ciContains "# TODO".data line := by
  simp only [buildTestRecord]
  split <;> rfl

theorem buildTestRecord_hasSkip (i : Nat) (line : List Char) (ind : Nat) (p : Bool)
    (ds rest : List Char) :
    (buildTestRecord i line ind p ds rest).hasSkip = ciContains "# SKIP".data line := by
  simp only [buildTestRecord]
  split <;> rfl

/-- C9: for every test-result line, `hasTodo` (resp. `hasSkip`) holds exactly
when the full raw line contains the substring `# TODO` (resp. `# SKIP`) up to
ASCII case; consequently lines differing only in the directive's case yield
identical flags, and both flags can be true on one line (concrete conjuncts). -/
theorem c9_directive_detection :
    (∀ (i ind : Nat) (p : Bool) (line ds rest : List Char),
        matchTestResult line = some (ind, p, ds, rest) →
        ((buildTestRecord i line ind p ds rest).hasTodo = true ↔
          ∃ a mid b, line = a ++ mid ++ b ∧ mid.map lowerAscii = "# todo".data) ∧
        ((buildTestRecord i line ind p ds rest).hasSkip = true ↔
          ∃ a mid b, line = a ++ mid ++ b ∧ mid.map lowerAscii = "# skip".data)) ∧
    (parseTapContent "ok 1 - x # todo").map (fun g => g.tests.map (fun t => t.hasTodo)) =
      [[true]] ∧
    (parseTapContent "ok 1 - x # TODO").map (fun g => g.tests.map (fun t => t.hasTodo)) =
      [[true]] ∧
    (parseTapContent "ok 1 - x # ToDo").map (fun g => g.tests.map (fun t => t.hasTodo)) =
      [[true]] ∧
    (parseTapContent "not ok 1 - x # SKIP # TODO").map
      (fun g => g.tests.map (fun t => (t.hasTodo, t.hasSkip))) = [[(true, true)]] := by
  refine ⟨?_, by rfl, by rfl, by rfl, by rfl⟩
  intro i ind p line ds rest _
  constructor
  · rw [buildTestRecord_hasTodo, ciContains_iff]
    have hpat : ("# TODO".data).map lowerAscii = "# todo".data := by decide
    rw [hpat]
  · rw [buildTestRecord_hasSkip, ciContains_iff]
    have hpat : ("# SKIP".data).map lowerAscii = "# skip".data := by decide
    rw [hpat]

/-- C9 witness: the record of the line `"ok 1 # todo"` carries `hasTodo`. -/
theorem c9_witness :
    (buildTestRecord 0 ("ok 1 # todo".data) 0 true ['1'] ("# todo".data)).hasTodo = true :=
  ((c9_directive_detection.1 0 0 true ("ok 1 # todo".data) ['1'] ("# todo".data)
      (by decide)).1).mpr
    ⟨"ok 1 ".data, "# todo".data, [], by decide, by decide⟩

/-! ### C4: YAML fold regions -/

theorem getD_drop (l : List (List Char)) : ∀ (n m : Nat),
    (l.drop n).getD m [] = l.getD (n + m) [] := by
  induction l with
  | nil => intro n m; simp
  | cons a l ih =>
    intro n m
    cases n with
    | zero => simp
    | succ n2 =>
      rw [List.drop_succ_cons, ih n2 m]
      have : n2 + 1 + m = (n2 + m) + 1 := by omega
      rw [this, List.getD_cons_succ]

theorem findClose_some_spec : ∀ {ls : List (List Char)} {k : Nat}, findClose ls = some k →
    k < ls.length ∧ jsTrim (ls.getD k []) = ['.', '.', '.'] ∧
    ∀ m, m < k → jsTrim (ls.getD m []) ≠ ['.', '.', '.'] := by
  intro ls
  induction ls with
  | nil => intro k h; exact absurd h (by simp [findClose])
  | cons l ls ih =>
    intro k h
    by_cases hd : jsTrim l = ['.', '.', '.']
    · rw [findClose, if_pos hd] at h
      obtain rfl := Option.some.inj h
      exact ⟨by simp, by simpa using hd, fun m hm => absurd hm (by omega)⟩
    · rw [findClose, if_neg hd] at h
      cases hfc : findClose ls with
      | none => rw [hfc] at h; exact absurd h (by simp)
      | some k2 =>
        rw [hfc] at h
        simp only [Option.map_some'] at h
        obtain rfl := Option.some.inj h
        obtain ⟨hb, hdots, hmin⟩ := ih hfc
        refine ⟨by simpa using hb, by simpa using hdots, ?_⟩
        intro m hm
        cases m with
        | zero => simpa using hd
        | succ m2 =>
          rw [List.getD_cons_succ]
          exact hmin m2 (by omega)

theorem findClose_eq_some_of : ∀ {ls : List (List Char)} {k : Nat},
    k < ls.length → jsTrim (ls.getD k []) = ['.', '.', '.'] →
    (∀ m, m < k → jsTrim (ls.getD m []) ≠ ['.', '.', '.']) →
    findClose ls = some k := by
  intro ls
  induction ls with
  | nil => intro k hk; simp at hk
  | cons l ls ih =>
    intro k hk hdots hmin
    cases k with
    | zero =>
      rw [List.getD_cons_zero] at hdots
      rw [findClose, if_pos hdots]
    | succ k2 =>
      have hd : jsTrim l ≠ ['.', '.', '.'] := by
        have := hmin 0 (by omega)
        simpa using this
      rw [findClose, if_neg hd]
      rw [List.getD_cons_succ] at hdots
      have := ih (by simpa using Nat.lt_of_succ_lt_succ hk) hdots
        (fun m hm => by
          have := hmin (m + 1) (by omega)
          simpa using this)
      rw [this]
      rfl

theorem findClose_none_spec : ∀ {ls : List (List Char)}, findClose ls = none →
    ∀ m, m < ls.length → jsTrim (ls.getD m []) ≠ ['.', '.', '.'] := by
  intro ls
  induction ls with
  | nil => intro _ m hm; simp at hm
  | cons l ls ih =>
    intro h m hm
    by_cases hd : jsTrim l = ['.', '.', '.']
    · rw [findClose, if_pos hd] at h
      exact absurd h (by simp)
    · rw [findClose, if_neg hd] at h
      cases m with
      | zero => simpa using hd
      | succ m2 =>
        rw [List.getD_cons_succ]
        cases hfc : findClose ls with
        | none => exact ih hfc m2 (by simpa using Nat.lt_of_succ_lt_succ hm)
        | some k2 => rw [hfc] at h; exact absurd h (by simp)

theorem dropWhile_head_not {p : Char → Bool} : ∀ {l : List Char} {c : Char} {t : List Char},
    l.dropWhile p = c :: t → p c = false := by
  intro l
  induction l with
  | nil => intro c t h; simp at h
  | cons a l ih =>
    intro c t h
    by_cases ha : p a = true
    · rw [List.dropWhile_cons_of_pos ha] at h
      exact ih h
    · rw [List.dropWhile_cons_of_neg ha] at h
      injection h with h1 _
      rw [← h1]
      exact Bool.eq_false_iff.mpr ha

theorem trim_structure {l x : List Char} (h : jsTrim l = x) :
    ∃ w1 w2, w1.all isJsSpace = true ∧ w2.all isJsSpace = true ∧ l = w1 ++ x ++ w2 := by
  have h2 : l = trimRight l ++ (l.reverse.takeWhile isJsSpace).reverse := by
    have hr := congrArg List.reverse
      (List.takeWhile_append_dropWhile (p := isJsSpace) (l := l.reverse))
    rw [List.reverse_append, List.reverse_reverse] at hr
    rw [trimRight]
    exact hr.symm
  have h3 : trimRight l = (trimRight l).takeWhile isJsSpace ++ x := by
    rw [← h, jsTrim]
    exact (List.takeWhile_append_dropWhile (p := isJsSpace) (l := trimRight l)).symm
  refine ⟨(trimRight l).takeWhile isJsSpace, (l.reverse.takeWhile isJsSpace).reverse,
    all_takeWhile_self _, ?_, ?_⟩
  · rw [List.all_reverse]
    exact all_takeWhile_self _
  · conv_lhs => rw [h2, h3]

theorem dropWhile_of_trim {l x : List Char} {c : Char} {t : List Char}
    (h : jsTrim l = x) (hx : x = c :: t) (hc : isJsSpace c = false) :
    ∃ w2, w2.all isJsSpace = true ∧ l.dropWhile isJsSpace = x ++ w2 := by
  obtain ⟨w1, w2, hw1, hw2, hl⟩ := trim_structure h
  refine ⟨w2, hw2, ?_⟩
  rw [hl, List.append_assoc, dropWhile_append_of_all _ hw1, hx, List.cons_append,
    dropWhile_cons_neg _ hc, ← List.cons_append]

theorem matchTestResult_none_of_dashes {l : List Char}
    (h : jsTrim l = ['-', '-', '-']) : matchTestResult l = none := by
  obtain ⟨w2, hw2, hd⟩ := dropWhile_of_trim h rfl (by decide)
  rw [matchTestResult]
  rw [hd]
  rfl

theorem matchTestPlan_none_of_dashes {l : List Char}
    (h : jsTrim l = ['-', '-', '-']) : matchTestPlan l = none := by
  obtain ⟨w2, hw2, hd⟩ := dropWhile_of_trim h rfl (by decide)
  rw [matchTestPlan]
  rw [hd]
  rfl

theorem foldLoop_opener_mem :
    ∀ (rest : List (List Char)) (i : Nat) (cur : Option Nat) (k m : Nat),
      k < rest.length →
      jsTrim (rest.getD k []) = ['-', '-', '-'] →
      findClose (rest.drop (k + 1)) = some m →
      ({ start := i + k, stop := i + k + 1 + m, isRegion := true } : FoldRange) ∈
        foldLoop rest i cur := by
  intro rest
  induction rest with
  | nil => intro i cur k m hk; simp at hk
  | cons line rest2 ih =>
    intro i cur k m hk htrim hfc
    cases k with
    | zero =>
      rw [List.getD_cons_zero] at htrim
      rw [List.drop_succ_cons, List.drop_zero] at hfc
      have h1 : matchTestResult line = none := matchTestResult_none_of_dashes htrim
      have h2 : matchTestPlan line = none := matchTestPlan_none_of_dashes htrim
      simp only [foldLoop, h1, h2, Option.isSome_none]
      rw [if_neg (by simp), if_neg (by simp), if_pos htrim, hfc]
      have harith : i + 0 = i := by omega
      rw [harith]
      exact List.mem_append_left _ (List.mem_singleton.mpr (by simp))
    | succ k2 =>
      rw [List.getD_cons_succ] at htrim
      rw [List.drop_succ_cons] at hfc
      have harith1 : i + (k2 + 1) = (i + 1) + k2 := by omega
      rw [harith1]
      have hk2 : k2 < rest2.length := by simpa using Nat.lt_of_succ_lt_succ hk
      by_cases c1 : (matchTestResult line).isSome = true
      · simp only [foldLoop]
        rw [if_pos c1]
        exact List.mem_append_right _ (ih (i + 1) (some i) k2 m hk2 htrim hfc)
      · by_cases c2 : (matchTestPlan line).isSome = true
        · simp only [foldLoop]
          rw [if_neg c1, if_pos c2]
          exact List.mem_append_right _ (ih (i + 1) none k2 m hk2 htrim hfc)
        · by_cases c3 : jsTrim line = ['-', '-', '-']
          · simp only [foldLoop]
            rw [if_neg c1, if_neg c2, if_pos c3]
            exact List.mem_append_right _ (ih (i + 1) cur k2 m hk2 htrim hfc)
          · simp only [foldLoop]
            rw [if_neg c1, if_neg c2, if_neg c3]
            exact ih (i + 1) cur k2 m hk2 htrim hfc

theorem foldLoop_region_start :
    ∀ (rest : List (List Char)) (i : Nat) (cur : Option Nat) (r : FoldRange),
      r ∈ foldLoop rest i cur → r.isRegion = true →
      ∃ k m, k < rest.length ∧ r.start = i + k ∧ r.stop = i + k + 1 + m ∧
        jsTrim (rest.getD k []) = ['-', '-', '-'] ∧
        findClose (rest.drop (k + 1)) = some m := by
  intro rest
  induction rest with
  | nil =>
    intro i cur r hr hreg
    cases cur with
    | none => simp [foldLoop, closeFold] at hr
    | some c =>
      simp only [foldLoop, closeFold] at hr
      by_cases hc : c + 1 < i
      · rw [if_pos hc] at hr
        rw [List.mem_singleton] at hr
        rw [hr] at hreg
        simp at hreg
      · rw [if_neg hc] at hr
        simp at hr
  | cons line rest2 ih =>
    intro i cur r hr hreg
    have lift : (∃ k m, k < rest2.length ∧ r.start = (i + 1) + k ∧
        r.stop = (i + 1) + k + 1 + m ∧ jsTrim (rest2.getD k []) = ['-', '-', '-'] ∧
        findClose (rest2.drop (k + 1)) = some m) →
        ∃ k m, k < (line :: rest2).length ∧ r.start = i + k ∧ r.stop = i + k + 1 + m ∧
          jsTrim ((line :: rest2).getD k []) = ['-', '-', '-'] ∧
          findClose ((line :: rest2).drop (k + 1)) = some m := by
      rintro ⟨k, m, hk, hs, hst, ht, hf⟩
      refine ⟨k + 1, m, by simpa using Nat.succ_lt_succ hk, by omega, by omega, ?_, ?_⟩
      · rwa [List.getD_cons_succ]
      · rwa [List.drop_succ_cons]
    have hemit : ∀ c : Option Nat, ∀ j : Nat, r ∈ closeFold c j → False := by
      intro c j hmem
      cases c with
      | none => simp [closeFold] at hmem
      | some c0 =>
        rw [closeFold] at hmem
        by_cases hcj : c0 + 1 < j
        · rw [if_pos hcj, List.mem_singleton] at hmem
          rw [hmem] at hreg
          simp at hreg
        · rw [if_neg hcj] at hmem
          simp at hmem
    by_cases c1 : (matchTestResult line).isSome = true
    · simp only [foldLoop] at hr
      rw [if_pos c1] at hr
      rcases List.mem_append.mp hr with h | h
      · exact absurd h (fun hm => hemit cur i hm)
      · exact lift (ih (i + 1) (some i) r h hreg)
    · by_cases c2 : (matchTestPlan line).isSome = true
      · simp only [foldLoop] at hr
        rw [if_neg c1, if_pos c2] at hr
        rcases List.mem_append.mp hr with h | h
        · exact absurd h (fun hm => hemit cur i hm)
        · exact lift (ih (i + 1) none r h hreg)
      · by_cases c3 : jsTrim line = ['-', '-', '-']
        · simp only [foldLoop] at hr
          rw [if_neg c1, if_neg c2, if_pos c3] at hr
          rcases List.mem_append.mp hr with h | h
          · cases hfc : findClose rest2 with
            | none => rw [hfc] at h; simp at h
            | some m0 =>
              rw [hfc] at h
              rw [List.mem_singleton] at h
              subst h
              refine ⟨0, m0, by simp, by simp, by simp, ?_, ?_⟩
              · rwa [List.getD_cons_zero]
              · rwa [List.drop_succ_cons, List.drop_zero]
          · exact lift (ih (i + 1) cur r h hreg)
        · simp only [foldLoop] at hr
          rw [if_neg c1, if_neg c2, if_neg c3] at hr
          exact lift (ih (i + 1) cur r hr hreg)

/-- C4: for every line index `i` whose trimmed content is exactly `---`: if
`j` is the first later line whose trimmed content is exactly `...`, the
folding pass emits exactly one region-kind fold and it spans `(i, j)`; if no
such closing line exists before end of input, no region-kind fold starting
at `i` is emitted. -/
theorem c4_yaml_fold_region (text : String) (i : Nat)
    (hi : i < (splitLines text.data).length)
    (hopen : jsTrim ((splitLines text.data).getD i []) = ['-', '-', '-']) :
    (∀ j, i < j → j < (splitLines text.data).length →
      jsTrim ((splitLines text.data).getD j []) = ['.', '.', '.'] →
      (∀ m, i < m → m < j → jsTrim ((splitLines text.data).getD m []) ≠ ['.', '.', '.']) →
      ({ start := i, stop := j, isRegion := true } : FoldRange) ∈ provideFoldingRanges text ∧
      ∀ r ∈ provideFoldingRanges text, r.start = i → r.isRegion = true →
        r = { start := i, stop := j, isRegion := true }) ∧
    ((∀ j, i < j → j < (splitLines text.data).length →
        jsTrim ((splitLines text.data).getD j []) ≠ ['.', '.', '.']) →
      ∀ r ∈ provideFoldingRanges text, r.start = i → r.isRegion = false) := by
  constructor
  · intro j hij hj hdots hmin
    have hlen : j - (i + 1) < ((splitLines text.data).drop (i + 1)).length := by
      rw [List.length_drop]
      omega
    have hget : ((splitLines text.data).drop (i + 1)).getD (j - (i + 1)) [] =
        (splitLines text.data).getD j [] := by
      rw [getD_drop]
      congr 1
      omega
    have hfc : findClose ((splitLines text.data).drop (i + 1)) = some (j - (i + 1)) := by
      refine findClose_eq_some_of hlen (by rw [hget]; exact hdots) ?_
      intro m hm
      rw [getD_drop]
      exact hmin (i + 1 + m) (by omega) (by omega)
    constructor
    · have hmem := foldLoop_opener_mem (splitLines text.data) 0 none i (j - (i + 1))
        hi hopen hfc
      have h1 : (0 : Nat) + i = i := by omega
      have h2 : 0 + i + 1 + (j - (i + 1)) = j := by omega
      rw [h1] at hmem
      rw [show i + 1 + (j - (i + 1)) = j from by omega] at hmem
      exact hmem
    · intro r hr hstart hreg
      obtain ⟨k, m, hk, hs, hst, htrimk, hfck⟩ :=
        foldLoop_region_start (splitLines text.data) 0 none r hr hreg
      have hki : k = i := by omega
      subst hki
      rw [hfc] at hfck
      obtain rfl := Option.some.inj hfck.symm
      cases r with
      | mk rs rst rreg =>
        simp only [FoldRange.mk.injEq]
        simp only at hs hst hreg
        exact ⟨by omega, by omega, hreg⟩
  · intro hnone r hr hstart
    cases hreg : r.isRegion with
    | false => rfl
    | true =>
      obtain ⟨k, m, hk, hs, hst, htrimk, hfck⟩ :=
        foldLoop_region_start (splitLines text.data) 0 none r hr hreg
      have hki : k = i := by omega
      rw [hki] at hfck
      obtain ⟨hb, hd, _⟩ := findClose_some_spec hfck
      rw [getD_drop] at hd
      rw [List.length_drop] at hb
      exact absurd hd (hnone (i + 1 + m) (by omega) (by omega))

/-- C4 witness: in `"---\n..."` the opener at line 0 is closed by line 1 and
the region fold `(0, 1)` is emitted. -/
theorem c4_witness :
    ({ start := 0, stop := 1, isRegion := true } : FoldRange) ∈
      provideFoldingRanges "---\n..." :=
  ((c4_yaml_fold_region "---\n..." 0 (by decide) (by decide)).1 1 (by decide) (by decide)
    (by decide) (fun m h1 h2 => absurd h2 (by omega))).1

/-! ### C10: a bare duration clause with no preceding text yields no duration -/

theorem tryDur_head_not_space {c : Char} (hc : isJsSpace c = false) (s : List Char) :
    tryDurationClause (c :: s) = none := by
  rw [tryDurationClause, if_neg (by simp [hc])]

theorem fdm_cons_none {c : Char} {cs : List Char}
    (h1 : tryDurationClause (c :: cs) = none) (h2 : findDurationMatch cs = none) :
    findDurationMatch (c :: cs) = none := by
  rw [findDurationMatch, h1, h2]
  rfl

theorem fdm_nonws_prefix :
    ∀ (p : List Char), p.all (fun c => !isJsSpace c) = true →
    ∀ {rest : List Char}, findDurationMatch rest = none →
      findDurationMatch (p ++ rest) = none
  | [], _, _, h => h
  | c :: p2, hall, rest, h => by
    simp only [List.all_cons, Bool.and_eq_true, Bool.not_eq_true'] at hall
    have hall2 : p2.all (fun c => !isJsSpace c) = true := by
      rw [List.all_eq_true]
      have := hall.2
      rw [List.all_eq_true] at this
      exact this
    have ih := fdm_nonws_prefix p2 hall2 h
    rw [List.cons_append]
    exact fdm_cons_none (tryDur_head_not_space hall.1 _) ih

theorem lower_ne_of_digit {c : Char} (hc : isDigitCh c = true) : ¬ lowerAscii c = 'i' := by
  intro he
  rw [digit_lowerAscii hc] at he
  rw [he] at hc
  exact absurd hc (by decide)

theorem fdm_ws_prefix_digit :
    ∀ (w : List Char), w.all isJsSpace = true →
    ∀ {c0 : Char} {z2 : List Char}, isDigitCh c0 = true →
      findDurationMatch (c0 :: z2) = none →
      findDurationMatch (w ++ c0 :: z2) = none
  | [], _, _, _, _, h => h
  | a :: w2, hall, c0, z2, hc0, h => by
    simp only [List.all_cons, Bool.and_eq_true] at hall
    have ih := fdm_ws_prefix_digit w2 hall.2 hc0 h
    rw [List.cons_append]
    have htry : tryDurationClause (a :: (w2 ++ c0 :: z2)) = none := by
      rw [tryDurationClause, if_pos (by simp [hall.1])]
      have hdrop : (a :: (w2 ++ c0 :: z2)).dropWhile isJsSpace = c0 :: z2 := by
        rw [List.dropWhile_cons_of_pos hall.1, dropWhile_append_of_all _ hall.2,
          dropWhile_cons_neg _ (digit_not_space hc0)]
      rw [hdrop]
      cases z2 with
      | nil => rfl
      | cons n1 r2 =>
        have hne : (lowerAscii c0 == 'i') = false := by
          rw [beq_eq_false_iff_ne]
          exact lower_ne_of_digit hc0
        simp [hne]
    exact fdm_cons_none htry ih

/-- C10: the line `"ok 1 in 5s"` yields a record with no duration and
description `"in 5s"`; in general, a cleaned description that consists
solely of a duration clause with its leading whitespace removed by trimming
(case-insensitive `in`, then whitespace, a decimal number and `ms` or `s`)
never matches the duration pattern, which requires whitespace before `in`. -/
theorem c10_bare_duration_clause :
    (parseTapContent "ok 1 in 5s").map
        (fun g => g.tests.map (fun t => (t.duration, t.description))) =
      [[(none, "in 5s".data)]] ∧
    (∀ (cIn w2 d f u : List Char),
      cIn.map lowerAscii = "in".data →
      w2.all isJsSpace = true →
      d ≠ [] → d.all isDigitCh = true →
      (f = [] ∨ ∃ fd, fd ≠ [] ∧ fd.all isDigitCh = true ∧ f = '.' :: fd) →
      (u.map lowerAscii = "ms".data ∨ u.map lowerAscii = "s".data) →
      findDurationMatch (cIn ++ w2 ++ d ++ f ++ u) = none) := by
  refine ⟨by decide, ?_⟩
  intro cIn w2 d f u hin hw2 hdne hdall hf hu
  have hu_none : findDurationMatch u = none := by
    have hall : u.all (fun c => !isJsSpace c) = true := by
      rcases hu with h | h
      · cases u with
        | nil => simp at h
        | cons a t =>
          cases t with
          | nil => simp at h
          | cons b t2 =>
            cases t2 with
            | nil =>
              simp only [List.map_cons, List.map_nil, List.cons.injEq, and_true] at h
              simp [not_space_of_lowerAscii h.1 (by decide),
                not_space_of_lowerAscii h.2 (by decide)]
            | cons x t3 => simp at h
      · cases u with
        | nil => simp at h
        | cons a t =>
          cases t with
          | nil =>
            simp only [List.map_cons, List.map_nil, List.cons.injEq, and_true] at h
            simp [not_space_of_lowerAscii h (by decide)]
          | cons b t2 => simp at h
    have h2 : findDurationMatch (u ++ []) = none := fdm_nonws_prefix u hall rfl
    simpa using h2
  have hf_none : findDurationMatch (f ++ u) = none := by
    rcases hf with rfl | ⟨fd, _, hfdall, rfl⟩
    · simpa using hu_none
    · refine fdm_nonws_prefix ('.' :: fd) ?_ hu_none
      simp only [List.all_cons, Bool.and_eq_true]
      refine ⟨by decide, ?_⟩
      rw [List.all_eq_true] at hfdall ⊢
      intro x hx
      simp [digit_not_space (hfdall x hx)]
  have hd_none : findDurationMatch (d ++ f ++ u) = none := by
    rw [List.append_assoc]
    refine fdm_nonws_prefix d ?_ hf_none
    rw [List.all_eq_true] at hdall ⊢
    intro x hx
    simp [digit_not_space (hdall x hx)]
  have hw2_none : findDurationMatch (w2 ++ d ++ f ++ u) = none := by
    cases d with
    | nil => exact absurd rfl hdne
    | cons c0 d2 =>
      have hc0 : isDigitCh c0 = true := by
        simp only [List.all_cons, Bool.and_eq_true] at hdall
        exact hdall.1
      have hz : findDurationMatch (c0 :: (d2 ++ f ++ u)) = none := by
        have h3 := hd_none
        simpa [List.append_assoc] using h3
      have h4 := fdm_ws_prefix_digit w2 hw2 hc0 hz
      simpa [List.append_assoc] using h4
  obtain ⟨iC, nC, hcin, hiC, hnC⟩ : ∃ iC nC, cIn = [iC, nC] ∧
      lowerAscii iC = 'i' ∧ lowerAscii nC = 'n' := by
    cases cIn with
    | nil => simp at hin
    | cons a t =>
      cases t with
      | nil => simp at hin
      | cons b t2 =>
        cases t2 with
        | nil =>
          simp only [List.map_cons, List.map_nil, List.cons.injEq, and_true] at hin
          exact ⟨a, b, rfl, hin.1, hin.2⟩
        | cons x t3 => simp at hin
  have hprefix : ([iC, nC]).all (fun c => !isJsSpace c) = true := by
    simp [not_space_of_lowerAscii hiC (by decide), not_space_of_lowerAscii hnC (by decide)]
  have hfinal := fdm_nonws_prefix [iC, nC] hprefix hw2_none
  rw [hcin]
  simpa [List.append_assoc] using hfinal

/-- C10 witness: the clause `"in 5s"` itself, decomposed as `in`, one space,
the digits `5`, no fraction and unit `s`, admits no duration match. -/
theorem c10_witness : findDurationMatch "in 5s".data = none := by
  have h := c10_bare_duration_clause.2 "in".data [' '] ['5'] [] ['s']
    (by decide) (by decide) (by decide) (by decide) (Or.inl rfl) (Or.inr (by decide))
  simpa using h

/-! ### C5: duration extraction -/

theorem tryDur_cons_wsrun (w : List Char) (hw : w.all isJsSpace = true)
    (a : Char) (ha : isJsSpace a = true) (s : List Char) :
    tryDurationClause (a :: (w ++ s)) = tryDurationClause (a :: s) := by
  rw [tryDurationClause, if_pos ha, List.dropWhile_cons_of_pos ha,
    dropWhile_append_of_all _ hw]
  rw [tryDurationClause, if_pos ha, List.dropWhile_cons_of_pos ha]

theorem ne_nil_head_all {p : Char → Bool} {l : List Char} (hne : l ≠ [])
    (hall : l.all p = true) : ∃ c t, l = c :: t ∧ p c = true ∧ t.all p = true := by
  cases l with
  | nil => exact absurd rfl hne
  | cons c t =>
    simp only [List.all_cons, Bool.and_eq_true] at hall
    exact ⟨c, t, rfl, hall.1, hall.2⟩

theorem map_lower_single {u : List Char} {c : Char} (h : u.map lowerAscii = [c]) :
    ∃ u1, u = [u1] ∧ lowerAscii u1 = c := by
  cases u with
  | nil => simp at h
  | cons a t =>
    cases t with
    | nil =>
      simp only [List.map_cons, List.map_nil, List.cons.injEq, and_true] at h
      exact ⟨a, rfl, h⟩
    | cons b t2 => simp at h

theorem map_lower_pair {u : List Char} {c1 c2 : Char} (h : u.map lowerAscii = [c1, c2]) :
    ∃ u1 u2, u = [u1, u2] ∧ lowerAscii u1 = c1 ∧ lowerAscii u2 = c2 := by
  cases u with
  | nil => simp at h
  | cons a t =>
    cases t with
    | nil => simp at h
    | cons b t2 =>
      cases t2 with
      | nil =>
        simp only [List.map_cons, List.map_nil, List.cons.injEq, and_true] at h
        exact ⟨a, b, rfl, h.1, h.2⟩
      | cons x t3 => simp at h

theorem not_dot_of_lower {c t : Char} (h : lowerAscii c = t) (ht : t ≠ '.') : (c = '.') = False := by
  simp only [eq_iff_iff, iff_false]
  intro hc
  rw [hc] at h
  exact ht (by simpa [lowerAscii] using h.symm)

theorem tryDur_clause_eq (w1 : List Char) (iC nC : Char) (w2 d f u : List Char) (sec : Bool)
    (hw1ne : w1 ≠ []) (hw1 : w1.all isJsSpace = true)
    (hiC : lowerAscii iC = 'i') (hnC : lowerAscii nC = 'n')
    (hw2ne : w2 ≠ []) (hw2 : w2.all isJsSpace = true)
    (hdne : d ≠ []) (hdall : d.all isDigitCh = true)
    (hf : f = [] ∨ ∃ fd, fd ≠ [] ∧ fd.all isDigitCh = true ∧ f = '.' :: fd)
    (hu : u.map lowerAscii = (if sec = true then ['s'] else ['m', 's'])) :
    tryDurationClause (w1 ++ iC :: nC :: (w2 ++ d ++ f ++ u)) =
      some (d, fracDigits f, sec) := by
  obtain ⟨a0, w1t, rfl, ha0, hw1t⟩ := ne_nil_head_all hw1ne hw1
  rw [List.cons_append, tryDur_cons_wsrun w1t hw1t a0 ha0]
  obtain ⟨b0, w2t, rfl, hb0, hw2t⟩ := ne_nil_head_all hw2ne hw2
  obtain ⟨d0, dt, rfl, hd0, hdt⟩ := ne_nil_head_all hdne hdall
  have hiCns : isJsSpace iC = false := not_space_of_lowerAscii hiC (by decide)
  have hbeq : (lowerAscii iC == 'i' && lowerAscii nC == 'n') = true := by
    rw [hiC, hnC]; rfl
  rw [tryDurationClause, if_pos ha0, List.dropWhile_cons_of_pos ha0,
    dropWhile_cons_neg _ hiCns]
  cases sec with
  | true =>
    obtain ⟨u1, rfl, hu1⟩ := map_lower_single (by simpa using hu)
    have hu1nd : isDigitCh u1 = false := not_digit_of_lowerAscii hu1 (by decide)
    have hu1dot : (u1 = '.') = False := not_dot_of_lower hu1 (by decide)
    have hsbeq : (lowerAscii u1 == 's') = true := by rw [hu1]; rfl
    rcases hf with rfl | ⟨fd, hfdne, hfdall, rfl⟩
    · simp only [List.cons_append, List.append_assoc, List.nil_append]
      have hZdw : List.dropWhile isJsSpace (b0 :: (w2t ++ (d0 :: (dt ++ [u1])))) =
          d0 :: (dt ++ [u1]) := by
        rw [List.dropWhile_cons_of_pos hb0, dropWhile_append_of_all _ hw2t,
          dropWhile_cons_neg _ (digit_not_space hd0)]
      have hZtw : List.takeWhile isDigitCh (d0 :: (dt ++ [u1])) = d0 :: dt := by
        rw [List.takeWhile_cons_of_pos hd0, takeWhile_append_of_all _ hdt,
          takeWhile_cons_neg _ hu1nd, List.append_nil]
      have hZdwd : List.dropWhile isDigitCh (d0 :: (dt ++ [u1])) = [u1] := by
        rw [List.dropWhile_cons_of_pos hd0, dropWhile_append_of_all _ hdt,
          dropWhile_cons_neg _ hu1nd]
      simp [hbeq, hb0, hZdw, hZtw, hZdwd, hu1dot, hsbeq, fracDigits, durFracSplit, durUnitMatch]
    · obtain ⟨fd0, fdt, rfl, hfd0, hfdt⟩ := ne_nil_head_all hfdne hfdall
      simp only [List.cons_append, List.append_assoc]
      have hZdw : List.dropWhile isJsSpace
          (b0 :: (w2t ++ (d0 :: (dt ++ ('.' :: (fd0 :: (fdt ++ [u1]))))))) =
          d0 :: (dt ++ ('.' :: (fd0 :: (fdt ++ [u1])))) := by
        rw [List.dropWhile_cons_of_pos hb0, dropWhile_append_of_all _ hw2t,
          dropWhile_cons_neg _ (digit_not_space hd0)]
      have hZtw : List.takeWhile isDigitCh (d0 :: (dt ++ ('.' :: (fd0 :: (fdt ++ [u1]))))) =
          d0 :: dt := by
        rw [List.takeWhile_cons_of_pos hd0, takeWhile_append_of_all _ hdt,
          takeWhile_cons_neg _ (by decide), List.append_nil]
      have hZdwd : List.dropWhile isDigitCh (d0 :: (dt ++ ('.' :: (fd0 :: (fdt ++ [u1]))))) =
          '.' :: (fd0 :: (fdt ++ [u1])) := by
        rw [List.dropWhile_cons_of_pos hd0, dropWhile_append_of_all _ hdt,
          dropWhile_cons_neg _ (by decide)]
      have htkfd : List.takeWhile isDigitCh (fd0 :: (fdt ++ [u1])) = fd0 :: fdt := by
        rw [List.takeWhile_cons_of_pos hfd0, takeWhile_append_of_all _ hfdt,
          takeWhile_cons_neg _ hu1nd, List.append_nil]
      have hdpfd : List.dropWhile isDigitCh (fd0 :: (fdt ++ [u1])) = [u1] := by
        rw [List.dropWhile_cons_of_pos hfd0, dropWhile_append_of_all _ hfdt,
          dropWhile_cons_neg _ hu1nd]
      simp [hbeq, hb0, hZdw, hZtw, hZdwd, htkfd, hdpfd, hfd0, hsbeq, fracDigits, durFracSplit, durUnitMatch]
  | false =>
    obtain ⟨u1, u2, rfl, hu1, hu2⟩ := map_lower_pair (by simpa using hu)
    have hu1nd : isDigitCh u1 = false := not_digit_of_lowerAscii hu1 (by decide)
    have hu1dot : (u1 = '.') = False := not_dot_of_lower hu1 (by decide)
    have hmsbeq : (lowerAscii u1 == 'm' && lowerAscii u2 == 's') = true := by
      rw [hu1, hu2]; rfl
    rcases hf with rfl | ⟨fd, hfdne, hfdall, rfl⟩
    · simp only [List.cons_append, List.append_assoc, List.nil_append]
      have hZdw : List.dropWhile isJsSpace (b0 :: (w2t ++ (d0 :: (dt ++ [u1, u2])))) =
          d0 :: (dt ++ [u1, u2]) := by
        rw [List.dropWhile_cons_of_pos hb0, dropWhile_append_of_all _ hw2t,
          dropWhile_cons_neg _ (digit_not_space hd0)]
      have hZtw : List.takeWhile isDigitCh (d0 :: (dt ++ [u1, u2])) = d0 :: dt := by
        rw [List.takeWhile_cons_of_pos hd0, takeWhile_append_of_all _ hdt,
          takeWhile_cons_neg _ hu1nd, List.append_nil]
      have hZdwd : List.dropWhile isDigitCh (d0 :: (dt ++ [u1, u2])) = [u1, u2] := by
        rw [List.dropWhile_cons_of_pos hd0, dropWhile_append_of_all _ hdt,
          dropWhile_cons_neg _ hu1nd]
      simp [hbeq, hb0, hZdw, hZtw, hZdwd, hu1dot, hmsbeq, fracDigits, durFracSplit, durUnitMatch]
    · obtain ⟨fd0, fdt, rfl, hfd0, hfdt⟩ := ne_nil_head_all hfdne hfdall
      simp only [List.cons_append, List.append_assoc]
      have hZdw : List.dropWhile isJsSpace
          (b0 :: (w2t ++ (d0 :: (dt ++ ('.' :: (fd0 :: (fdt ++ [u1, u2]))))))) =
          d0 :: (dt ++ ('.' :: (fd0 :: (fdt ++ [u1, u2])))) := by
        rw [List.dropWhile_cons_of_pos hb0, dropWhile_append_of_all _ hw2t,
          dropWhile_cons_neg _ (digit_not_space hd0)]
      have hZtw : List.takeWhile isDigitCh
          (d0 :: (dt ++ ('.' :: (fd0 :: (fdt ++ [u1, u2]))))) = d0 :: dt := by
        rw [List.takeWhile_cons_of_pos hd0, takeWhile_append_of_all _ hdt,
          takeWhile_cons_neg _ (by decide), List.append_nil]
      have hZdwd : List.dropWhile isDigitCh
          (d0 :: (dt ++ ('.' :: (fd0 :: (fdt ++ [u1, u2]))))) =
          '.' :: (fd0 :: (fdt ++ [u1, u2])) := by
        rw [List.dropWhile_cons_of_pos hd0, dropWhile_append_of_all _ hdt,
          dropWhile_cons_neg _ (by decide)]
      have htkfd : List.takeWhile isDigitCh (fd0 :: (fdt ++ [u1, u2])) = fd0 :: fdt := by
        rw [List.takeWhile_cons_of_pos hfd0, takeWhile_append_of_all _ hfdt,
          takeWhile_cons_neg _ hu1nd, List.append_nil]
      have hdpfd : List.dropWhile isDigitCh (fd0 :: (fdt ++ [u1, u2])) = [u1, u2] := by
        rw [List.dropWhile_cons_of_pos hfd0, dropWhile_append_of_all _ hfdt,
          dropWhile_cons_neg _ hu1nd]
      simp [hbeq, hb0, hZdw, hZtw, hZdwd, htkfd, hdpfd, hfd0, hmsbeq, fracDigits, durFracSplit, durUnitMatch]

theorem space_not_digit {c : Char} (h : isJsSpace c = true) : isDigitCh c = false := by
  simp only [isJsSpace, Bool.or_eq_true, decide_eq_true_eq, Bool.and_eq_true] at h
  rw [Bool.eq_false_iff]
  intro hd
  simp only [isDigitCh, Bool.and_eq_true, decide_eq_true_eq] at hd
  omega

theorem space_ne_dot {c : Char} (h : isJsSpace c = true) : ¬ c = '.' := by
  intro he
  rw [he] at h
  exact absurd h (by decide)

theorem digit_lower_ne {c t : Char} (hc : isDigitCh c = true) (ht : isDigitCh t = false) :
    ¬ lowerAscii c = t := by
  intro he
  rw [digit_lowerAscii hc] at he
  rw [he] at hc
  rw [hc] at ht
  simp at ht

theorem rev_ne_nil {l : List Char} (h : l ≠ []) : l.reverse ≠ [] := by
  simpa [List.reverse_eq_nil_iff] using h

theorem all_rev {p : Char → Bool} {l : List Char} (h : l.all p = true) :
    l.reverse.all p = true := by
  rwa [List.all_reverse]

theorem revDurParse_clause_eq (w1 : List Char) (iC nC : Char) (w2 d f u T X : List Char)
    (sec : Bool)
    (hw1ne : w1 ≠ []) (hw1 : w1.all isJsSpace = true)
    (hiC : lowerAscii iC = 'i') (hnC : lowerAscii nC = 'n')
    (hw2ne : w2 ≠ []) (hw2 : w2.all isJsSpace = true)
    (hdne : d ≠ []) (hdall : d.all isDigitCh = true)
    (hf : f = [] ∨ ∃ fd, fd ≠ [] ∧ fd.all isDigitCh = true ∧ f = '.' :: fd)
    (hu : u.map lowerAscii = (if sec = true then ['s'] else ['m', 's']))
    (hT : T.all isJsSpace = true) :
    revDurParse ((w1 ++ iC :: nC :: (w2 ++ d ++ f ++ u ++ T)).reverse ++ X) =
      some ((d, fracDigits f, sec), X.dropWhile isJsSpace) := by
  obtain ⟨g, rdt, hrd, hg, hrdt⟩ := ne_nil_head_all (rev_ne_nil hdne) (all_rev hdall)
  obtain ⟨b, rw2t, hrw2, hb, hrw2t⟩ := ne_nil_head_all (rev_ne_nil hw2ne) (all_rev hw2)
  obtain ⟨e, rw1t, hrw1, he, hrw1t⟩ := ne_nil_head_all (rev_ne_nil hw1ne) (all_rev hw1)
  have hnCns : isJsSpace nC = false := not_space_of_lowerAscii hnC (by decide)
  have hrevIn : revDurIn (b :: (rw2t ++ nC :: iC :: (w1.reverse ++ X))) =
      some (X.dropWhile isJsSpace) := by
    rw [revDurIn.eq_def]
    simp only []
    rw [if_pos hb, List.dropWhile_cons_of_pos hb,
      dropWhile_append_of_all _ hrw2t, dropWhile_cons_neg _ hnCns]
    simp only []
    rw [if_pos ⟨hnC, hiC⟩, hrw1]
    rw [List.cons_append]
    simp only []
    rw [if_pos he, List.dropWhile_cons_of_pos he, dropWhile_append_of_all _ hrw1t]
  cases sec with
  | true =>
    obtain ⟨u1, rfl, hu1⟩ := map_lower_single (by simpa using hu)
    have hu1ns : isJsSpace u1 = false := not_space_of_lowerAscii hu1 (by decide)
    rcases hf with rfl | ⟨fd, hfdne, hfdall, rfl⟩
    · have hEq : (w1 ++ iC :: nC :: (w2 ++ d ++ [] ++ [u1] ++ T)).reverse ++ X =
          T.reverse ++ (u1 :: (d.reverse ++ (w2.reverse ++ (nC :: iC :: (w1.reverse ++ X))))) := by
        simp [List.reverse_append, List.append_assoc]
      rw [hEq, revDurParse]
      rw [dropWhile_append_of_all _ (all_rev hT), dropWhile_cons_neg _ hu1ns]
      rw [revDurUnit.eq_def]
      simp only []
      rw [if_pos hu1, hrd]
      rw [List.cons_append]
      simp only []
      rw [if_neg (digit_lower_ne hg (by decide))]
      simp only []
      have hrun1 : List.takeWhile isDigitCh (g :: (rdt ++ (w2.reverse ++
          (nC :: iC :: (w1.reverse ++ X))))) = g :: rdt := by
        rw [List.takeWhile_cons_of_pos hg, takeWhile_append_of_all _ hrdt, hrw2,
          List.cons_append, takeWhile_cons_neg _ (space_not_digit hb), List.append_nil]
      have hrest3 : List.dropWhile isDigitCh (g :: (rdt ++ (w2.reverse ++
          (nC :: iC :: (w1.reverse ++ X))))) = b :: (rw2t ++ nC :: iC :: (w1.reverse ++ X)) := by
        rw [List.dropWhile_cons_of_pos hg, dropWhile_append_of_all _ hrdt, hrw2,
          List.cons_append, dropWhile_cons_neg _ (space_not_digit hb)]
      rw [revDurNum]
      simp only []
      rw [hrun1, hrest3]
      rw [if_neg (by simp)]
      simp only []
      rw [if_neg (space_ne_dot hb)]
      have hgd : (g :: rdt).reverse = d := by
        rw [← hrd, List.reverse_reverse]
      rw [hgd]
      simp only []
      rw [hrevIn]
      rfl
    · obtain ⟨q, rfdt, hrfd, hq, hrfdt⟩ := ne_nil_head_all (rev_ne_nil hfdne) (all_rev hfdall)
      have hEq : (w1 ++ iC :: nC :: (w2 ++ d ++ ('.' :: fd) ++ [u1] ++ T)).reverse ++ X =
          T.reverse ++ u1 :: (fd.reverse ++ '.' ::
            (d.reverse ++ (w2.reverse ++ nC :: iC :: (w1.reverse ++ X)))) := by
        simp [List.reverse_append, List.append_assoc]
      rw [hEq, revDurParse]
      rw [dropWhile_append_of_all _ (all_rev hT), dropWhile_cons_neg _ hu1ns]
      rw [revDurUnit.eq_def]
      simp only []
      rw [if_pos hu1, hrfd]
      rw [List.cons_append]
      simp only []
      rw [if_neg (digit_lower_ne hq (by decide))]
      simp only []
      have hrun1 : List.takeWhile isDigitCh (q :: (rfdt ++ '.' ::
          (d.reverse ++ (w2.reverse ++ nC :: iC :: (w1.reverse ++ X))))) = q :: rfdt := by
        rw [List.takeWhile_cons_of_pos hq, takeWhile_append_of_all _ hrfdt,
          takeWhile_cons_neg _ (by decide), List.append_nil]
      have hrest3 : List.dropWhile isDigitCh (q :: (rfdt ++ '.' ::
          (d.reverse ++ (w2.reverse ++ nC :: iC :: (w1.reverse ++ X))))) =
          '.' :: (d.reverse ++ (w2.reverse ++ nC :: iC :: (w1.reverse ++ X))) := by
        rw [List.dropWhile_cons_of_pos hq, dropWhile_append_of_all _ hrfdt,
          dropWhile_cons_neg _ (by decide)]
      rw [revDurNum]
      simp only []
      rw [hrun1, hrest3]
      rw [if_neg (by simp)]
      simp only []
      have hrun2 : List.takeWhile isDigitCh
          (d.reverse ++ (w2.reverse ++ nC :: iC :: (w1.reverse ++ X))) = g :: rdt := by
        rw [hrd, List.cons_append, List.takeWhile_cons_of_pos hg,
          takeWhile_append_of_all _ hrdt, hrw2, List.cons_append,
          takeWhile_cons_neg _ (space_not_digit hb), List.append_nil]
      have hdrop2 : List.dropWhile isDigitCh
          (d.reverse ++ (w2.reverse ++ nC :: iC :: (w1.reverse ++ X))) =
          b :: (rw2t ++ nC :: iC :: (w1.reverse ++ X)) := by
        rw [hrd, List.cons_append, List.dropWhile_cons_of_pos hg,
          dropWhile_append_of_all _ hrdt, hrw2, List.cons_append,
          dropWhile_cons_neg _ (space_not_digit hb)]
      rw [hrun2, hdrop2]
      rw [if_neg (show ¬ ((g :: rdt).isEmpty = true) by simp)]
      have hgd : (g :: rdt).reverse = d := by
        rw [← hrd, List.reverse_reverse]
      have hqfd : (q :: rfdt).reverse = fd := by
        rw [← hrfd, List.reverse_reverse]
      simp only [if_true, ite_true]
      rw [hgd, hqfd]
      rw [hrevIn]
      rfl
  | false =>
    obtain ⟨u1, u2, rfl, hu1, hu2⟩ := map_lower_pair (by simpa using hu)
    have hu2ns : isJsSpace u2 = false := not_space_of_lowerAscii hu2 (by decide)
    rcases hf with rfl | ⟨fd, hfdne, hfdall, rfl⟩
    · have hEq : (w1 ++ iC :: nC :: (w2 ++ d ++ [] ++ [u1, u2] ++ T)).reverse ++ X =
          T.reverse ++ u2 :: u1 ::
            (d.reverse ++ (w2.reverse ++ nC :: iC :: (w1.reverse ++ X))) := by
        simp [List.reverse_append, List.append_assoc]
      rw [hEq, revDurParse]
      rw [dropWhile_append_of_all _ (all_rev hT), dropWhile_cons_neg _ hu2ns]
      rw [revDurUnit.eq_def]
      simp only []
      rw [if_pos hu2]
      simp only []
      rw [if_pos hu1, hrd]
      rw [List.cons_append]
      have hrun1 : List.takeWhile isDigitCh (g :: (rdt ++ (w2.reverse ++
          nC :: iC :: (w1.reverse ++ X)))) = g :: rdt := by
        rw [List.takeWhile_cons_of_pos hg, takeWhile_append_of_all _ hrdt, hrw2,
          List.cons_append, takeWhile_cons_neg _ (space_not_digit hb), List.append_nil]
      have hrest3 : List.dropWhile isDigitCh (g :: (rdt ++ (w2.reverse ++
          nC :: iC :: (w1.reverse ++ X)))) = b :: (rw2t ++ nC :: iC :: (w1.reverse ++ X)) := by
        rw [List.dropWhile_cons_of_pos hg, dropWhile_append_of_all _ hrdt, hrw2,
          List.cons_append, dropWhile_cons_neg _ (space_not_digit hb)]
      rw [revDurNum]
      simp only []
      rw [hrun1, hrest3]
      rw [if_neg (by simp)]
      simp only []
      rw [if_neg (space_ne_dot hb)]
      have hgd : (g :: rdt).reverse = d := by
        rw [← hrd, List.reverse_reverse]
      rw [hgd]
      simp only []
      rw [hrevIn]
      rfl
    · obtain ⟨q, rfdt, hrfd, hq, hrfdt⟩ := ne_nil_head_all (rev_ne_nil hfdne) (all_rev hfdall)
      have hEq : (w1 ++ iC :: nC :: (w2 ++ d ++ ('.' :: fd) ++ [u1, u2] ++ T)).reverse ++ X =
          T.reverse ++ u2 :: u1 :: (fd.reverse ++ '.' ::
            (d.reverse ++ (w2.reverse ++ nC :: iC :: (w1.reverse ++ X)))) := by
        simp [List.reverse_append, List.append_assoc]
      rw [hEq, revDurParse]
      rw [dropWhile_append_of_all _ (all_rev hT), dropWhile_cons_neg _ hu2ns]
      rw [revDurUnit.eq_def]
      simp only []
      rw [if_pos hu2]
      simp only []
      rw [if_pos hu1, hrfd]
      rw [List.cons_append]
      have hrun1 : List.takeWhile isDigitCh (q :: (rfdt ++ '.' ::
          (d.reverse ++ (w2.reverse ++ nC :: iC :: (w1.reverse ++ X))))) = q :: rfdt := by
        rw [List.takeWhile_cons_of_pos hq, takeWhile_append_of_all _ hrfdt,
          takeWhile_cons_neg _ (by decide), List.append_nil]
      have hrest3 : List.dropWhile isDigitCh (q :: (rfdt ++ '.' ::
          (d.reverse ++ (w2.reverse ++ nC :: iC :: (w1.reverse ++ X))))) =
          '.' :: (d.reverse ++ (w2.reverse ++ nC :: iC :: (w1.reverse ++ X))) := by
        rw [List.dropWhile_cons_of_pos hq, dropWhile_append_of_all _ hrfdt,
          dropWhile_cons_neg _ (by decide)]
      rw [revDurNum]
      simp only []
      rw [hrun1, hrest3]
      rw [if_neg (by simp)]
      simp only []
      have hrun2 : List.takeWhile isDigitCh
          (d.reverse ++ (w2.reverse ++ nC :: iC :: (w1.reverse ++ X))) = g :: rdt := by
        rw [hrd, List.cons_append, List.takeWhile_cons_of_pos hg,
          takeWhile_append_of_all _ hrdt, hrw2, List.cons_append,
          takeWhile_cons_neg _ (space_not_digit hb), List.append_nil]
      have hdrop2 : List.dropWhile isDigitCh
          (d.reverse ++ (w2.reverse ++ nC :: iC :: (w1.reverse ++ X))) =
          b :: (rw2t ++ nC :: iC :: (w1.reverse ++ X)) := by
        rw [hrd, List.cons_append, List.dropWhile_cons_of_pos hg,
          dropWhile_append_of_all _ hrdt, hrw2, List.cons_append,
          dropWhile_cons_neg _ (space_not_digit hb)]
      rw [hrun2, hdrop2]
      rw [if_neg (show ¬ ((g :: rdt).isEmpty = true) by simp)]
      have hgd : (g :: rdt).reverse = d := by
        rw [← hrd, List.reverse_reverse]
      have hqfd : (q :: rfdt).reverse = fd := by
        rw [← hrfd, List.reverse_reverse]
      simp only [if_true, ite_true]
      rw [hgd, hqfd]
      rw [hrevIn]
      rfl

theorem durUnitMatch_some_decomp {dInt dFrac a b r5 : List Char} {sec : Bool}
    (h : durUnitMatch dInt dFrac r5 = some (a, b, sec)) :
    a = dInt ∧ b = dFrac ∧ ∃ U T, r5 = U ++ T ∧ T.all isJsSpace = true ∧
      U.map lowerAscii = (if sec = true then ['s'] else ['m', 's']) := by
  match r5 with
  | [] => simp [durUnitMatch] at h
  | [u1] =>
    simp only [durUnitMatch] at h
    split at h
    · rename_i hs
      injection h with h1
      injection h1 with h1 h2
      injection h2 with h2 h3
      refine ⟨h1.symm, h2.symm, [u1], [], by simp, rfl, ?_⟩
      rw [← h3]
      simp only [if_true, List.map_cons, List.map_nil, List.cons.injEq, and_true]
      exact beq_iff_eq.mp hs
    · exact absurd h (by simp)
  | u1 :: u2 :: r6 =>
    simp only [durUnitMatch] at h
    split at h
    · rename_i hms
      split at h
      · rename_i hall
        injection h with h1
        injection h1 with h1 h2
        injection h2 with h2 h3
        refine ⟨h1.symm, h2.symm, [u1, u2], r6, by simp, hall, ?_⟩
        rw [← h3]
        simp only [Bool.and_eq_true, beq_iff_eq] at hms
        simp [hms.1, hms.2]
      · exact absurd h (by simp)
    · split at h
      · rename_i hs
        split at h
        · rename_i hall
          injection h with h1
          injection h1 with h1 h2
          injection h2 with h2 h3
          refine ⟨h1.symm, h2.symm, [u1], u2 :: r6, by simp, hall, ?_⟩
          rw [← h3]
          simp only [if_true, List.map_cons, List.map_nil, List.cons.injEq, and_true]
          exact beq_iff_eq.mp hs
        · exact absurd h (by simp)
      · exact absurd h (by simp)

theorem durFracSplit_some_decomp {r4 x y : List Char}
    (h : durFracSplit r4 = some (x, y)) :
    x ≠ [] ∧ x.all isDigitCh = true ∧ r4 = ('.' :: x) ++ y := by
  match r4 with
  | [] => simp [durFracSplit] at h
  | c1 :: t =>
    simp only [durFracSplit] at h
    split at h
    · rename_i hdot
      match t with
      | [] => simp at h
      | e :: t2 =>
        simp only [] at h
        split at h
        · rename_i he
          injection h with h1
          injection h1 with h1 h2
          subst hdot
          refine ⟨?_, ?_, ?_⟩
          · rw [← h1]; simp [List.takeWhile_cons_of_pos he]
          · rw [← h1]; exact all_takeWhile_self _
          · rw [← h1, ← h2]
            simp [List.takeWhile_append_dropWhile]
        · exact absurd h (by simp)
    · exact absurd h (by simp)

theorem tryDur_some_decomp {s dI dF : List Char} {sec : Bool}
    (h : tryDurationClause s = some (dI, dF, sec)) :
    ∃ W1 I1 N1 W2 F U T, s = W1 ++ I1 :: N1 :: (W2 ++ dI ++ F ++ U ++ T) ∧
      W1 ≠ [] ∧ W1.all isJsSpace = true ∧
      lowerAscii I1 = 'i' ∧ lowerAscii N1 = 'n' ∧
      W2 ≠ [] ∧ W2.all isJsSpace = true ∧
      dI ≠ [] ∧ dI.all isDigitCh = true ∧
      (F = [] ∨ ∃ fd, fd ≠ [] ∧ fd.all isDigitCh = true ∧ F = '.' :: fd) ∧
      dF = fracDigits F ∧
      U.map lowerAscii = (if sec = true then ['s'] else ['m', 's']) ∧
      T.all isJsSpace = true := by
  match s with
  | [] => simp [tryDurationClause] at h
  | c :: cs =>
    simp only [tryDurationClause] at h
    split at h
    case isFalse => exact absurd h (by simp)
    case isTrue =>
      rename_i hc
      split at h
      case h_2 => exact absurd h (by simp)
      case h_1 =>
        rename_i i1 n1 r2 hdw
        split at h
        case isFalse => exact absurd h (by simp)
        case isTrue =>
          rename_i hin
          split at h
          case h_1 => exact absurd h (by simp)
          case h_2 =>
            rename_i d0 r2t
            split at h
            case isFalse => exact absurd h (by simp)
            case isTrue =>
              rename_i hd0
              split at h
              case isTrue => exact absurd h (by simp)
              case isFalse =>
                rename_i hni
                have hin2 : lowerAscii i1 = 'i' ∧ lowerAscii n1 = 'n' := by
                  simpa [Bool.and_eq_true, beq_iff_eq] using hin
                cases hfr : durFracSplit
                    (List.dropWhile isDigitCh (List.dropWhile isJsSpace (d0 :: r2t))) with
                | none =>
                  rw [hfr] at h
                  simp only [] at h
                  obtain ⟨hdi, hdf, U, T, hr5, hT, hU⟩ := durUnitMatch_some_decomp h
                  have hA : d0 :: r2t =
                      List.takeWhile isJsSpace (d0 :: r2t) ++ (dI ++ (U ++ T)) := by
                    conv_lhs => rw [← List.takeWhile_append_dropWhile (p := isJsSpace)
                      (l := d0 :: r2t)]
                    congr 1
                    rw [hdi]
                    conv_lhs => rw [← List.takeWhile_append_dropWhile (p := isDigitCh)
                      (l := List.dropWhile isJsSpace (d0 :: r2t))]
                    congr 1
                  refine ⟨List.takeWhile isJsSpace (c :: cs), i1, n1,
                    List.takeWhile isJsSpace (d0 :: r2t), [], U, T, ?_,
                    ?_, all_takeWhile_self _, hin2.1, hin2.2,
                    ?_, all_takeWhile_self _, ?_, ?_, Or.inl rfl, ?_, hU, hT⟩
                  · conv_lhs => rw [← List.takeWhile_append_dropWhile (p := isJsSpace)
                      (l := c :: cs), hdw, hA]
                    simp [List.append_assoc]
                  · rw [List.takeWhile_cons_of_pos hc]; simp
                  · rw [List.takeWhile_cons_of_pos hd0]; simp
                  · rw [hdi]; simpa using hni
                  · rw [hdi]; exact all_takeWhile_self _
                  · rw [hdf]; rfl
                | some p =>
                  obtain ⟨x, y⟩ := p
                  rw [hfr] at h
                  simp only [] at h
                  obtain ⟨hdi, hdf, U, T, hr5, hT, hU⟩ := durUnitMatch_some_decomp h
                  obtain ⟨hxne, hxall, hr4⟩ := durFracSplit_some_decomp hfr
                  have hA : d0 :: r2t =
                      List.takeWhile isJsSpace (d0 :: r2t) ++ (dI ++ (('.' :: x) ++ (U ++ T))) := by
                    conv_lhs => rw [← List.takeWhile_append_dropWhile (p := isJsSpace)
                      (l := d0 :: r2t)]
                    congr 1
                    rw [hdi]
                    conv_lhs => rw [← List.takeWhile_append_dropWhile (p := isDigitCh)
                      (l := List.dropWhile isJsSpace (d0 :: r2t))]
                    congr 1
                    rw [hr4, hr5]
                  refine ⟨List.takeWhile isJsSpace (c :: cs), i1, n1,
                    List.takeWhile isJsSpace (d0 :: r2t), '.' :: x, U, T, ?_,
                    ?_, all_takeWhile_self _, hin2.1, hin2.2,
                    ?_, all_takeWhile_self _, ?_, ?_,
                    Or.inr ⟨x, hxne, hxall, rfl⟩, ?_, hU, hT⟩
                  · conv_lhs => rw [← List.takeWhile_append_dropWhile (p := isJsSpace)
                      (l := c :: cs), hdw, hA]
                    simp [List.append_assoc]
                  · rw [List.takeWhile_cons_of_pos hc]; simp
                  · rw [List.takeWhile_cons_of_pos hd0]; simp
                  · rw [hdi]; simpa using hni
                  · rw [hdi]; exact all_takeWhile_self _
                  · rw [hdf]; simp [fracDigits]

theorem all_of_dropWhile_nil {p : Char → Bool} {l : List Char} (h : l.dropWhile p = []) :
    l.all p = true := by
  induction l with
  | nil => rfl
  | cons c t ih =>
    by_cases hc : p c = true
    · rw [List.dropWhile_cons_of_pos hc] at h
      simp [hc, ih h]
    · rw [List.dropWhile_cons_of_neg hc] at h
      exact absurd h (by simp)

theorem tryDur_ext_ws (s0 w1 : List Char) (iC nC : Char) (w2 d f u : List Char)
    (r : List Char × List Char × Bool)
    (hw1ne : w1 ≠ []) (hw1 : w1.all isJsSpace = true)
    (hiC : lowerAscii iC = 'i') (hnC : lowerAscii nC = 'n')
    (hw2ne : w2 ≠ []) (hw2 : w2.all isJsSpace = true)
    (hdne : d ≠ []) (hdall : d.all isDigitCh = true)
    (hf : f = [] ∨ ∃ fd, fd ≠ [] ∧ fd.all isDigitCh = true ∧ f = '.' :: fd)
    (hu : u.map lowerAscii = ['s'] ∨ u.map lowerAscii = ['m', 's'])
    (h : tryDurationClause (s0 ++ (w1 ++ iC :: nC :: (w2 ++ d ++ f ++ u))) = some r) :
    s0.all isJsSpace = true := by
  obtain ⟨dI, dF, sec'⟩ := r
  obtain ⟨W1, I1, N1, W2, F, U, T, heq, hW1ne, hW1, hI1, hN1, hW2ne, hW2, hdIne, hdIall,
    hF, hdF, hUmap, hT⟩ := tryDur_some_decomp h
  have hsec : ∃ sec : Bool, u.map lowerAscii = (if sec = true then ['s'] else ['m', 's']) := by
    rcases hu with hu | hu
    · exact ⟨true, by simpa using hu⟩
    · exact ⟨false, by simpa using hu⟩
  obtain ⟨sec, husec⟩ := hsec
  have h2 := revDurParse_clause_eq w1 iC nC w2 d f u [] s0.reverse sec
    hw1ne hw1 hiC hnC hw2ne hw2 hdne hdall hf husec rfl
  have h1 := revDurParse_clause_eq W1 I1 N1 W2 dI F U T [] sec'
    hW1ne hW1 hI1 hN1 hW2ne hW2 hdIne hdIall hF hUmap hT
  have hsame : (W1 ++ I1 :: N1 :: (W2 ++ dI ++ F ++ U ++ T)).reverse ++ ([] : List Char) =
      (w1 ++ iC :: nC :: (w2 ++ d ++ f ++ u ++ [])).reverse ++ s0.reverse := by
    simp only [List.append_nil]
    rw [← heq, ← List.reverse_append]
  rw [hsame, h2] at h1
  simp only [Option.some.injEq, Prod.mk.injEq, List.dropWhile_nil] at h1
  have hnil : s0.reverse.dropWhile isJsSpace = [] := h1.2
  have hall := all_of_dropWhile_nil hnil
  rwa [List.all_reverse] at hall

theorem getLast_opt_is_some {c : Char} {l : List Char} : ∃ a, (c :: l).getLast? = some a := by
  induction l generalizing c with
  | nil => exact ⟨c, rfl⟩
  | cons b t ih => rw [List.getLast?_cons_cons]; exact ih

theorem mem_of_getLast_opt {l : List Char} {a : Char} (h : l.getLast? = some a) : a ∈ l := by
  induction l with
  | nil => simp at h
  | cons c t ih =>
    cases t with
    | nil =>
      simp only [List.getLast?_singleton, Option.some.injEq] at h
      simp [h]
    | cons b l2 =>
      rw [List.getLast?_cons_cons] at h
      exact List.mem_cons_of_mem _ (ih h)

theorem fdm_concat (pre w1 : List Char) (iC nC : Char) (w2 d f u : List Char) (sec : Bool)
    (hlast : ∀ a, pre.getLast? = some a → isJsSpace a = false)
    (hw1ne : w1 ≠ []) (hw1 : w1.all isJsSpace = true)
    (hiC : lowerAscii iC = 'i') (hnC : lowerAscii nC = 'n')
    (hw2ne : w2 ≠ []) (hw2 : w2.all isJsSpace = true)
    (hdne : d ≠ []) (hdall : d.all isDigitCh = true)
    (hf : f = [] ∨ ∃ fd, fd ≠ [] ∧ fd.all isDigitCh = true ∧ f = '.' :: fd)
    (hu : u.map lowerAscii = (if sec = true then ['s'] else ['m', 's'])) :
    findDurationMatch (pre ++ (w1 ++ iC :: nC :: (w2 ++ d ++ f ++ u))) =
      some (pre, d, fracDigits f, sec) := by
  have hu' : u.map lowerAscii = ['s'] ∨ u.map lowerAscii = ['m', 's'] := by
    cases sec
    · right; simpa using hu
    · left; simpa using hu
  revert hlast
  induction pre with
  | nil =>
    intro _
    simp only [List.nil_append]
    obtain ⟨a0, w1t, hw1eq, ha0, hw1t⟩ := ne_nil_head_all hw1ne hw1
    subst hw1eq
    rw [List.cons_append, findDurationMatch]
    have htry : tryDurationClause (a0 :: (w1t ++ iC :: nC :: (w2 ++ d ++ f ++ u))) =
        some (d, fracDigits f, sec) := by
      rw [← List.cons_append]
      exact tryDur_clause_eq (a0 :: w1t) iC nC w2 d f u sec (by simp)
        (by simp [ha0, hw1t]) hiC hnC hw2ne hw2 hdne hdall hf hu
    rw [htry]
    rfl
  | cons c pre2 ih =>
    intro hlast
    have hlast2 : ∀ a, pre2.getLast? = some a → isJsSpace a = false := by
      intro a ha
      apply hlast
      cases pre2 with
      | nil => simp at ha
      | cons b l => rw [List.getLast?_cons_cons]; exact ha
    have htn : tryDurationClause ((c :: pre2) ++ (w1 ++ iC :: nC :: (w2 ++ d ++ f ++ u))) =
        none := by
      cases htc : tryDurationClause ((c :: pre2) ++ (w1 ++ iC :: nC :: (w2 ++ d ++ f ++ u))) with
      | none => rfl
      | some r =>
        exfalso
        have hws := tryDur_ext_ws (c :: pre2) w1 iC nC w2 d f u r hw1ne hw1 hiC hnC
          hw2ne hw2 hdne hdall hf hu' htc
        obtain ⟨a, hgl⟩ := getLast_opt_is_some (c := c) (l := pre2)
        have hlw : isJsSpace a = false := hlast a hgl
        have hmem : a ∈ c :: pre2 := mem_of_getLast_opt hgl
        have hx := (List.all_eq_true.mp hws) _ hmem
        rw [hlw] at hx
        exact absurd hx (by simp)
    rw [List.cons_append] at htn
    rw [List.cons_append, findDurationMatch, htn, ih hlast2]
    rfl

theorem jsTrim_append_ws (x t : List Char) (ht : t.all isJsSpace = true) :
    jsTrim (x ++ t) = jsTrim x := by
  simp only [jsTrim, trimRight, List.reverse_append]
  rw [dropWhile_append_of_all _ (all_rev ht)]

/-- C5: for every test-result line whose cleaned description ends with a
clause matching, case-insensitively, whitespace then `in` then a decimal
number then `ms` or `s`, the record's duration equals that number in
milliseconds (multiplied by 1000 when the unit is seconds, as-is for `ms`)
and the matched clause is removed from the description (which is then
re-trimmed). -/
theorem c5_duration_extraction (i : Nat) (line : List Char) (ind : Nat) (passed : Bool)
    (ds rest : List Char) (pre w1 : List Char) (iC nC : Char) (w2 d f u : List Char) (sec : Bool)
    (hdesc : cleanDescription ds rest = pre ++ (w1 ++ iC :: nC :: (w2 ++ d ++ f ++ u)))
    (hw1ne : w1 ≠ []) (hw1 : w1.all isJsSpace = true)
    (hiC : lowerAscii iC = 'i') (hnC : lowerAscii nC = 'n')
    (hw2ne : w2 ≠ []) (hw2 : w2.all isJsSpace = true)
    (hdne : d ≠ []) (hdall : d.all isDigitCh = true)
    (hf : f = [] ∨ ∃ fd, fd ≠ [] ∧ fd.all isDigitCh = true ∧ f = '.' :: fd)
    (hu : u.map lowerAscii = (if sec = true then ['s'] else ['m', 's'])) :
    (buildTestRecord i line ind passed ds rest).duration =
      some (if sec = true then decimalVal d (fracDigits f) * 1000
        else decimalVal d (fracDigits f)) ∧
    (buildTestRecord i line ind passed ds rest).description = jsTrim pre := by
  have hsplit : (pre.reverse.dropWhile isJsSpace).reverse ++
      (pre.reverse.takeWhile isJsSpace).reverse = pre := by
    rw [← List.reverse_append, List.takeWhile_append_dropWhile, List.reverse_reverse]
  have htws : ((pre.reverse.takeWhile isJsSpace).reverse).all isJsSpace = true :=
    all_rev (all_takeWhile_self _)
  have hlast1 : ∀ a, ((pre.reverse.dropWhile isJsSpace).reverse).getLast? = some a →
      isJsSpace a = false := by
    intro a ha
    rw [List.getLast?_reverse] at ha
    cases hdw : pre.reverse.dropWhile isJsSpace with
    | nil => rw [hdw] at ha; simp at ha
    | cons c0 t0 =>
      rw [hdw] at ha
      simp only [List.head?_cons, Option.some.injEq] at ha
      rw [← ha]
      exact dropWhile_head_not hdw
  have hdesc2 : cleanDescription ds rest =
      (pre.reverse.dropWhile isJsSpace).reverse ++
        (((pre.reverse.takeWhile isJsSpace).reverse ++ w1) ++
          iC :: nC :: (w2 ++ d ++ f ++ u)) := by
    rw [hdesc, ← hsplit]
    simp [List.append_assoc]
  have hw1ne2 : (pre.reverse.takeWhile isJsSpace).reverse ++ w1 ≠ [] := by
    simp [List.append_eq_nil, hw1ne]
  have hw1all2 : ((pre.reverse.takeWhile isJsSpace).reverse ++ w1).all isJsSpace = true := by
    simp [List.all_append, htws, hw1]
  have hfdm := fdm_concat ((pre.reverse.dropWhile isJsSpace).reverse)
    ((pre.reverse.takeWhile isJsSpace).reverse ++ w1) iC nC w2 d f u sec hlast1
    hw1ne2 hw1all2 hiC hnC hw2ne hw2 hdne hdall hf hu
  have hfdm2 : findDurationMatch (cleanDescription ds rest) =
      some ((pre.reverse.dropWhile isJsSpace).reverse, d, fracDigits f, sec) := by
    rw [hdesc2]; exact hfdm
  have hjt : jsTrim ((pre.reverse.dropWhile isJsSpace).reverse) = jsTrim pre := by
    conv_rhs => rw [← hsplit]
    rw [jsTrim_append_ws _ _ htws]
  constructor
  · simp only [buildTestRecord, hfdm2]
  · simp only [buildTestRecord, hfdm2]
    exact hjt

theorem c5_witness :
    matchTestResult "ok 1 - done in 1.5s".data =
      some (0, true, "1".data, "done in 1.5s".data) ∧
    (buildTestRecord 0 "ok 1 - done in 1.5s".data 0 true "1".data
      "done in 1.5s".data).duration = some 1500 ∧
    (buildTestRecord 0 "ok 1 - done in 1.5s".data 0 true "1".data
      "done in 1.5s".data).description = "done".data := by
  have h := c5_duration_extraction 0 "ok 1 - done in 1.5s".data 0 true "1".data
    "done in 1.5s".data "done".data [' '] 'i' 'n' [' '] ['1'] ['.', '5'] ['s'] true
    (by decide) (by decide) (by decide) (by decide) (by decide) (by decide) (by decide)
    (by decide) (by decide) (Or.inr ⟨['5'], by decide, by decide, rfl⟩) (by decide)
  refine ⟨by decide, h.1.trans ?_, h.2.trans (by decide)⟩
  have : decimalVal ['1'] (fracDigits ['.', '5']) * 1000 = (1500 : Rat) := by
    simp [decimalVal, fracDigits, natOfDigits]
    norm_num
  simp [this]
